import Mathlib

/-!
Shallow embedding of the sorting-algorithm library documented in this
repository (TypeScript implementations of insertion sort, selection sort,
bubble sort, merge sort and three-way-partition quicksort), together with
proofs of the specified properties.

Arrays of numbers are modelled as `List α`; the algorithms are stated
generically over a Boolean comparison `le : α → α → Bool` (the source
compares numbers with `<`, `>`, `<=`; a strict comparison `a < b` is
translated as `!(le b a)`, which agrees with `<` on integers).  In-place
mutation `arr[k] = v` is modelled by `List.set`, which returns the final
state of the array; each in-place routine returns that final state.
-/

namespace Sorting

open scoped List

variable {α : Type u_a}

/-- Model of the JS destructuring swap
`[arr[a], arr[b]] = [arr[b], arr[a]]` on natural indices: both cells are
read first, then written. -/
def swapN [Inhabited α] (l : List α) (a b : Nat) : List α :=
  (l.set a (l.getD b default)).set b (l.getD a default)

/-! ### Insertion sort (`src/unnamed/part_004`)

```typescript
function insertionSort(arr: number[]): void {
    for (let i = 1; i < arr.length; i++) {
        const key = arr[i];
        let j = i - 1;
        while (j >= 0 && arr[j] > key) {
            arr[j + 1] = arr[j];
            j--;
        }
        arr[j + 1] = key;
    }
}
```
-/

/-- Inner `while` loop of `insertionSort`.  The argument `jp` stands for
`j + 1`, so the JS condition `j >= 0` becomes `jp > 0` and the final
assignment `arr[j + 1] = key` writes at index `jp`. -/
def insertLoop (le : α → α → Bool) [Inhabited α] (key : α) :
    List α → Nat → List α
  | arr, 0 => arr.set 0 key
  | arr, j + 1 =>
    if !(le (arr.getD j default) key) then
      insertLoop le key (arr.set (j + 1) (arr.getD j default)) j
    else
      arr.set (j + 1) key

theorem insertLoop_length (le : α → α → Bool) [Inhabited α] (key : α) :
    ∀ (arr : List α) (jp : Nat), (insertLoop le key arr jp).length = arr.length
  | arr, 0 => by simp [insertLoop]
  | arr, j + 1 => by
    unfold insertLoop
    split
    · rw [insertLoop_length le key]
      simp
    · simp

/-- Outer `for` loop of `insertionSort`, iterating `i` upward while
`i < arr.length`. -/
def insertionSortLoop (le : α → α → Bool) [Inhabited α]
    (arr : List α) (i : Nat) : List α :=
  if h : i < arr.length then
    insertionSortLoop le (insertLoop le (arr.getD i default) arr i) (i + 1)
  else arr
termination_by arr.length - i
decreasing_by
  rw [insertLoop_length]
  omega

/-- `insertionSort(arr)`: the final state of `arr`. -/
def insertionSort (le : α → α → Bool) [Inhabited α] (arr : List α) : List α :=
  insertionSortLoop le arr 1

/-! ### Selection sort (`src/unnamed/part_006`)

```typescript
function selectionSort(arr: number[]): void {
    const n = arr.length;
    for (let i = 0; i < n - 1; i++) {
        let minIdx = i;
        for (let j = i + 1; j < n; j++) {
            if (arr[j] < arr[minIdx]) {
                minIdx = j;
            }
        }
        [arr[i], arr[minIdx]] = [arr[minIdx], arr[i]];
    }
}
```
-/

/-- Inner loop of `selectionSort`: scan `j` over `[j, n)` keeping the index
of the least element seen (`arr[j] < arr[minIdx]` is `!(le arr[minIdx] arr[j])`). -/
def minIdxLoop (le : α → α → Bool) [Inhabited α]
    (arr : List α) (minIdx : Nat) (j : Nat) : Nat :=
  if j < arr.length then
    minIdxLoop le arr
      (if !(le (arr.getD minIdx default) (arr.getD j default)) then j else minIdx)
      (j + 1)
  else minIdx
termination_by arr.length - j

/-- Outer loop of `selectionSort` (`i < n - 1` on naturals is `i + 1 < n`). -/
def selectionSortLoop (le : α → α → Bool) [Inhabited α]
    (arr : List α) (i : Nat) : List α :=
  if h : i + 1 < arr.length then
    selectionSortLoop le (swapN arr i (minIdxLoop le arr i (i + 1))) (i + 1)
  else arr
termination_by arr.length - i
decreasing_by
  simp only [swapN, List.length_set]
  omega

/-- `selectionSort(arr)`: the final state of `arr`. -/
def selectionSort (le : α → α → Bool) [Inhabited α] (arr : List α) : List α :=
  selectionSortLoop le arr 0

/-! ### Bubble sort (`src/unnamed/part_005`)

```typescript
function bubbleSort(arr: number[]): void {
    const n = arr.length;
    for (let i = 0; i < n - 1; i++) {
        let swapped = false;
        for (let j = 0; j < n - i - 1; j++) {
            if (arr[j] > arr[j + 1]) {
                [arr[j], arr[j + 1]] = [arr[j + 1], arr[j]];
                swapped = true;
            }
        }
        if (!swapped) break;
    }
}
```
-/

/-- Inner pass of `bubbleSort`: `j` scans `[j, bound)`, swapping adjacent
out-of-order pairs (`arr[j] > arr[j+1]` is `!(le arr[j] arr[j+1])`) and
recording in `swapped` whether any swap happened. -/
def bubblePass (le : α → α → Bool) [Inhabited α]
    (arr : List α) (swapped : Bool) (j : Nat) (bound : Nat) : List α × Bool :=
  if j < bound then
    if !(le (arr.getD j default) (arr.getD (j + 1) default)) then
      bubblePass le (swapN arr j (j + 1)) true (j + 1) bound
    else
      bubblePass le arr swapped (j + 1) bound
  else (arr, swapped)
termination_by bound - j

/-- Outer loop of `bubbleSort`: run a pass with bound `n - i - 1`; stop
early (`break`) when a pass made no swap. -/
def bubbleSortLoop (le : α → α → Bool) [Inhabited α]
    (arr : List α) (n : Nat) (i : Nat) : List α :=
  if i + 1 < n then
    let p := bubblePass le arr false 0 (n - i - 1)
    if p.2 then bubbleSortLoop le p.1 n (i + 1) else p.1
  else arr
termination_by n - i

/-- `bubbleSort(arr)`: the final state of `arr` (`n` is read once, as in
the source). -/
def bubbleSort (le : α → α → Bool) [Inhabited α] (arr : List α) : List α :=
  bubbleSortLoop le arr arr.length 0

/-! ### Merge sort (`src/unnamed/part_003`)

```typescript
function mergeSort(arr: number[]): number[] {
    if (arr.length <= 1) return arr;
    const mid = Math.floor(arr.length / 2);
    const left = mergeSort(arr.slice(0, mid));
    const right = mergeSort(arr.slice(mid));
    return merge(left, right);
}

function merge(left: number[], right: number[]): number[] {
    const result: number[] = [];
    let i = 0, j = 0;
    while (i < left.length && j < right.length) {
        if (left[i] <= right[j]) {
            result.push(left[i++]);
        } else {
            result.push(right[j++]);
        }
    }
    return result.concat(left.slice(i)).concat(right.slice(j));
}
```
-/

/-- The `while` loop of `merge`, with cursors `i` into `left` and `j` into
`right` and the accumulated `result`; on exit the remainders
`left.slice(i)` and `right.slice(j)` are appended. -/
def mergeLoop (le : α → α → Bool) (left right : List α)
    (i j : Nat) (result : List α) : List α :=
  if h : i < left.length ∧ j < right.length then
    if le (left.get ⟨i, h.1⟩) (right.get ⟨j, h.2⟩) then
      mergeLoop le left right (i + 1) j (result ++ [left.get ⟨i, h.1⟩])
    else
      mergeLoop le left right i (j + 1) (result ++ [right.get ⟨j, h.2⟩])
  else result ++ left.drop i ++ right.drop j
termination_by (left.length - i) + (right.length - j)
decreasing_by
  · omega
  · omega

/-- `merge(left, right)`. -/
def merge (le : α → α → Bool) (left right : List α) : List α :=
  mergeLoop le left right 0 0 []

/-- `mergeSort(arr)`: returns the sorted array (`arr.slice(0, mid)` is
`take mid`, `arr.slice(mid)` is `drop mid`). -/
def mergeSort (le : α → α → Bool) (arr : List α) : List α :=
  if arr.length ≤ 1 then arr
  else
    let mid := arr.length / 2
    merge le (mergeSort le (arr.take mid)) (mergeSort le (arr.drop mid))
termination_by arr.length
decreasing_by
  · simp only [List.length_take]
    omega
  · simp only [List.length_drop]
    omega

/-! ### Three-way-partition quicksort (`src/unnamed/part_006`)

```typescript
function quickSort3Way(arr: number[], low: number = 0, high: number = arr.length - 1): void {
    if (low >= high) return;
    let lt = low, gt = high;
    const pivot = arr[low];
    let i = low + 1;
    while (i <= gt) {
        if (arr[i] < pivot) {
            [arr[lt], arr[i]] = [arr[i], arr[lt]];
            lt++; i++;
        } else if (arr[i] > pivot) {
            [arr[i], arr[gt]] = [arr[gt], arr[i]];
            gt--;
        } else {
            i++;
        }
    }
    quickSort3Way(arr, low, lt - 1);
    quickSort3Way(arr, gt + 1, high);
}
```

The bounds `low`, `high` are JS numbers that may lie outside
`[0, length-1]` (the function performs no bounds check), so they are
modelled as `Int` and element reads as `Option α`: `arr[k]` is `none`
when `k` is out of range, matching JS `undefined`.  A JS comparison
`x < y` is `false` whenever either side is `undefined`; `oLt` mirrors
that.  Writes out of range never occur in any execution analysed here
(in-range calls stay in range, and the out-of-range executions used
below perform in-range swaps only), so `setI` ignores them. -/

/-- Read `arr[k]` as in JS: `none` (undefined) when out of range. -/
def getI (l : List α) (k : Int) : Option α :=
  if 0 ≤ k then l[k.toNat]? else none

/-- Write `arr[k] = v` for an in-range `k` (out-of-range writes are not
exercised by any execution analysed in this development). -/
def setI (l : List α) (k : Int) (v : α) : List α :=
  if 0 ≤ k then l.set k.toNat v else l

/-- The JS comparison `a < b`, where both sides may be `undefined`:
`false` unless both are numbers, in which case it is `!(le b a)`. -/
def oLt (le : α → α → Bool) : Option α → Option α → Bool
  | some a, some b => !(le b a)
  | _, _ => false

/-- The JS destructuring swap on `Int` indices; both cells are read
before either is written. -/
def swapI (l : List α) (a b : Int) : List α :=
  match getI l a, getI l b with
  | some x, some y => setI (setI l a y) b x
  | _, _ => l

/-- The `while (i <= gt)` partition loop of `quickSort3Way`
(`arr[i] < pivot` is `oLt le (getI arr i) pivot`, `arr[i] > pivot` is
`oLt le pivot (getI arr i)`).  Returns the final `(arr, lt, gt)`. -/
def partitionLoop (le : α → α → Bool) (pivot : Option α) :
    List α → Int → Int → Int → List α × Int × Int :=
  fun arr lt i gt =>
    if i ≤ gt then
      if oLt le (getI arr i) pivot then
        partitionLoop le pivot (swapI arr lt i) (lt + 1) (i + 1) gt
      else if oLt le pivot (getI arr i) then
        partitionLoop le pivot (swapI arr i gt) lt i (gt - 1)
      else
        partitionLoop le pivot arr lt (i + 1) gt
    else (arr, lt, gt)
termination_by arr lt i gt => (gt + 1 - i).toNat

theorem partitionLoop_bounds (le : α → α → Bool) (pivot : Option α) :
    ∀ (arr : List α) (lt i gt : Int), lt < i → i ≤ gt + 1 →
      lt ≤ (partitionLoop le pivot arr lt i gt).2.1 ∧
      (partitionLoop le pivot arr lt i gt).2.2 ≤ gt ∧
      (partitionLoop le pivot arr lt i gt).2.1 ≤ (partitionLoop le pivot arr lt i gt).2.2
  | arr, lt, i, gt, h1, h2 => by
    unfold partitionLoop
    split
    · split
      · have := partitionLoop_bounds le pivot (swapI arr lt i) (lt + 1) (i + 1) gt
          (by omega) (by omega)
        omega
      · split
        · have := partitionLoop_bounds le pivot (swapI arr i gt) lt i (gt - 1)
            (by omega) (by omega)
          omega
        · have := partitionLoop_bounds le pivot arr lt (i + 1) gt
            (by omega) (by omega)
          omega
    · simp only
      omega
termination_by arr lt i gt => (gt + 1 - i).toNat

/-- `quickSort3Way(arr, low, high)`: the final state of `arr`.  Top-level
callers use the source's default arguments `low = 0`,
`high = arr.length - 1`. -/
def quickSort3Way (le : α → α → Bool) (arr : List α) (low high : Int) : List α :=
  if low ≥ high then arr
  else
    let pivot := getI arr low
    let p := partitionLoop le pivot arr low (low + 1) high
    quickSort3Way le (quickSort3Way le p.1 low (p.2.1 - 1)) (p.2.2 + 1) high
termination_by (high - low).toNat
decreasing_by
  · have := partitionLoop_bounds le (getI arr low) arr low (low + 1) high
      (by omega) (by omega)
    omega
  · have := partitionLoop_bounds le (getI arr low) arr low (low + 1) high
      (by omega) (by omega)
    omega

/-- Count of the calls to `quickSort3Way` (the top-level one included)
that reach the partition loop, i.e. that do not return at the
`low >= high` base case.  Mirrors the recursion of `quickSort3Way`. -/
def countPartitions (le : α → α → Bool) (arr : List α) (low high : Int) : Nat :=
  if low ≥ high then 0
  else
    let p := partitionLoop le (getI arr low) arr low (low + 1) high
    1 + countPartitions le p.1 low (p.2.1 - 1) +
      countPartitions le (quickSort3Way le p.1 low (p.2.1 - 1)) (p.2.2 + 1) high
termination_by (high - low).toNat
decreasing_by
  · have := partitionLoop_bounds le (getI arr low) arr low (low + 1) high
      (by omega) (by omega)
    omega
  · have := partitionLoop_bounds le (getI arr low) arr low (low + 1) high
      (by omega) (by omega)
    omega

/-! ### Concrete element orders

`leInt` is the numeric order used by the documented code; `leV` compares
value-index pairs by value only, the model the spec prescribes for
stability testing. -/

/-- The numeric comparison `<=` on integers, as a Boolean. -/
def leInt : Int → Int → Bool := fun a b => a ≤ b

/-- Comparison of value-index pairs by value only. -/
def leV : Int × Nat → Int × Nat → Bool := fun a b => a.1 ≤ b.1

/-! ### Order-side notions

`PW le l` is sortedness of `l` for the Boolean comparison `le` (each
element is `le` every later one); `LeTrans` and `LeTotal` are the
assumptions on `le` under which the algorithms sort. -/

/-- Pairwise sortedness for a Boolean comparison. -/
def PW (le : α → α → Bool) (l : List α) : Prop :=
  l.Pairwise (fun a b => le a b = true)

/-- Transitivity of a Boolean comparison. -/
def LeTrans (le : α → α → Bool) : Prop :=
  ∀ a b c, le a b = true → le b c = true → le a c = true

/-- Totality of a Boolean comparison. -/
def LeTotal (le : α → α → Bool) : Prop :=
  ∀ a b, le a b = true ∨ le b a = true

theorem LeTotal.refl {le : α → α → Bool} (h : LeTotal le) (a : α) :
    le a a = true := by
  rcases h a a with h' | h' <;> exact h'

/-! ### List access helpers -/

theorem getD_mid [Inhabited α] :
    ∀ (p : List α) (x : α) (q : List α), (p ++ x :: q).getD p.length default = x
  | [], _, _ => rfl
  | _ :: p, x, q => by simpa using getD_mid p x q

theorem set_mid :
    ∀ (p : List α) (x v : α) (q : List α), (p ++ x :: q).set p.length v = p ++ v :: q
  | [], _, _, _ => rfl
  | a :: p, x, v, q => by simp [set_mid p x v q]

theorem swapN_length [Inhabited α] (l : List α) (a b : Nat) :
    (swapN l a b).length = l.length := by
  simp [swapN]

theorem count_ge_one_of_getElem [BEq α] [LawfulBEq α] {l : List α} {a : Nat}
    (h : a < l.length) {x : α} (hax : (l[a] == x) = true) : 1 ≤ l.count x := by
  have hm : x ∈ l := by
    have h' : l[a] ∈ l := List.getElem_mem h
    rwa [eq_of_beq hax] at h'
  exact List.count_pos_iff.mpr hm

theorem swapN_perm [Inhabited α] (l : List α) (a b : Nat)
    (ha : a < l.length) (hb : b < l.length) : List.Perm (swapN l a b) l := by
  classical
  rw [List.perm_iff_count]
  intro x
  have hga : l.getD a default = l[a] := by
    simp [List.getD_eq_getElem?_getD, List.getElem?_eq_getElem ha]
  have hgb : l.getD b default = l[b] := by
    simp [List.getD_eq_getElem?_getD, List.getElem?_eq_getElem hb]
  have hb' : b < (l.set a (l.getD b default)).length := by simpa using hb
  rw [swapN, List.count_set _ _ _ _ hb', List.count_set _ _ _ _ ha]
  have hsb : (l.set a (l.getD b default))[b] = l[b] := by
    rcases Decidable.em (a = b) with rfl | hne
    · rw [List.getElem_set_self hb', hgb]
    · rw [List.getElem_set_ne hne]
  rw [hsb, hga, hgb]
  by_cases h1 : (l[a] == x) = true <;> by_cases h2 : (l[b] == x) = true
  · have hc := count_ge_one_of_getElem ha h1
    simp [h1, h2]
    omega
  · have hc := count_ge_one_of_getElem ha h1
    simp [h1, h2]
    omega
  · simp [h1, h2]
  · simp [h1, h2]

/-! ### Insertion sort: functional characterisation and properties

The inner shift loop inserts `key` into the prefix just after the last
element not greater than `key` (`insertOne`); the outer loop folds
`insertOne` over the array. -/

theorem rdropWhile_append_rtakeWhile (p : α → Bool) (l : List α) :
    l.rdropWhile p ++ l.rtakeWhile p = l := by
  induction l using List.reverseRecOn with
  | nil => simp
  | append_singleton l b ih =>
    by_cases hb : p b
    · rw [List.rdropWhile_concat_pos _ _ _ hb, List.rtakeWhile_concat_pos _ _ _ hb,
        ← List.append_assoc, ih]
    · rw [List.rdropWhile_concat_neg _ _ _ hb, List.rtakeWhile_concat_neg _ _ _ hb,
        List.append_nil]

/-- Insert `x` into `s` after every element `b` with `le b x` failing
stripped off the right; this is where the shift loop of `insertionSort`
puts the key. -/
def insertOne (le : α → α → Bool) (x : α) (s : List α) : List α :=
  s.rdropWhile (fun b => !(le b x)) ++ x :: s.rtakeWhile (fun b => !(le b x))

/-- Functional model of `insertionSort`: fold `insertOne` over the input. -/
def insertionModel (le : α → α → Bool) (arr : List α) : List α :=
  arr.foldl (fun s x => insertOne le x s) []

theorem insertOne_length (le : α → α → Bool) (x : α) (s : List α) :
    (insertOne le x s).length = s.length + 1 := by
  have h := congrArg List.length (rdropWhile_append_rtakeWhile (fun b => !(le b x)) s)
  simp only [List.length_append] at h
  simp [insertOne]
  omega

theorem insertLoop_eq_insertOne (le : α → α → Bool) [Inhabited α] (key : α) :
    ∀ (p : List α) (x : α) (q : List α),
      insertLoop le key (p ++ x :: q) p.length = insertOne le key p ++ q := by
  intro p
  induction p using List.reverseRecOn with
  | nil =>
    intro x q
    simp [insertLoop, insertOne]
  | append_singleton p b ih =>
    intro x q
    have hlen : (p ++ [b]).length = p.length + 1 := by simp
    rw [hlen, insertLoop]
    have hget : ((p ++ [b]) ++ x :: q).getD p.length default = b := by
      rw [List.append_assoc]
      exact getD_mid p b (x :: q)
    rw [hget]
    by_cases hb : le b key = true
    · rw [if_neg (by simp [hb])]
      have hset : ((p ++ [b]) ++ x :: q).set (p.length + 1) key = (p ++ [b]) ++ key :: q := by
        have h' := set_mid (p ++ [b]) x key q
        simpa using h'
      rw [hset]
      simp only [insertOne]
      rw [List.rdropWhile_concat_neg _ _ _ (by simp [hb]),
        List.rtakeWhile_concat_neg _ _ _ (by simp [hb])]
      simp
    · have hb' : le b key = false := by simpa using hb
      rw [if_pos (by simp [hb'])]
      have hset : ((p ++ [b]) ++ x :: q).set (p.length + 1) b = p ++ b :: (b :: q) := by
        have h' := set_mid (p ++ [b]) x b q
        simpa using h'
      rw [hset, ih b (b :: q)]
      simp only [insertOne]
      rw [List.rdropWhile_concat_pos _ _ _ (by simp [hb']),
        List.rtakeWhile_concat_pos _ _ _ (by simp [hb'])]
      simp

theorem insertionSortLoop_eq_foldl (le : α → α → Bool) [Inhabited α] :
    ∀ (t s : List α),
      insertionSortLoop le (s ++ t) s.length = t.foldl (fun s x => insertOne le x s) s
  | [], s => by
    rw [insertionSortLoop]
    simp
  | x :: t, s => by
    rw [insertionSortLoop, dif_pos (by simp)]
    have hget : (s ++ x :: t).getD s.length default = x := getD_mid s x t
    rw [hget, insertLoop_eq_insertOne le x s x t]
    have hlen : s.length + 1 = (insertOne le x s).length := by
      rw [insertOne_length]
    rw [hlen, insertionSortLoop_eq_foldl le t (insertOne le x s)]
    simp

theorem insertionSort_eq_model (le : α → α → Bool) [Inhabited α] (arr : List α) :
    insertionSort le arr = insertionModel le arr := by
  cases arr with
  | nil => simp [insertionSort, insertionSortLoop, insertionModel]
  | cons x t =>
    have h0 : insertionSort le (x :: t) = insertionSortLoop le ([x] ++ t) [x].length := rfl
    rw [h0, insertionSortLoop_eq_foldl le t [x], insertionModel]
    have : insertOne le x [] = [x] := by simp [insertOne]
    simp [this]

theorem insertOne_perm (le : α → α → Bool) (x : α) (s : List α) :
    insertOne le x s ~ x :: s := by
  calc insertOne le x s
      ~ x :: (s.rdropWhile (fun b => !(le b x)) ++ s.rtakeWhile (fun b => !(le b x))) :=
        List.perm_middle
    _ = x :: s := by rw [rdropWhile_append_rtakeWhile]

theorem insertOne_sorted {le : α → α → Bool} (htrans : LeTrans le) (htot : LeTotal le)
    (x : α) (s : List α) (hs : PW le s) : PW le (insertOne le x s) := by
  set p : α → Bool := fun b => !(le b x) with hp
  have hsplit : s.rdropWhile p ++ s.rtakeWhile p = s := rdropWhile_append_rtakeWhile p s
  rw [← hsplit] at hs
  rw [PW, List.pairwise_append] at hs
  obtain ⟨h1, h2, h12⟩ := hs
  have hx2 : ∀ b ∈ s.rtakeWhile p, le x b = true := by
    intro b hb
    have := List.mem_rtakeWhile_imp hb
    rw [hp] at this
    simp only [Bool.not_eq_true'] at this
    rcases htot x b with h | h
    · exact h
    · rw [this] at h
      exact absurd h (by simp)
  have h1x : ∀ a ∈ s.rdropWhile p, le a x = true := by
    rcases List.eq_nil_or_concat (s.rdropWhile p) with hnil | ⟨d, b, hdb⟩
    · rw [hnil]
      intro a ha
      exact absurd ha (List.not_mem_nil a)
    · rw [List.concat_eq_append] at hdb
      have hne : s.rdropWhile p ≠ [] := by
        rw [hdb]
        simp
      have hlastb : (s.rdropWhile p).getLast hne = b := by
        rw [List.getLast_congr hne (by simp) hdb]
        exact List.getLast_append_singleton d
      have hbx : le b x = true := by
        have hnot := List.rdropWhile_last_not p s hne
        rw [hlastb, hp] at hnot
        simpa using hnot
      rw [hdb] at h1
      rw [hdb]
      rw [List.pairwise_append] at h1
      intro a ha
      rcases List.mem_append.mp ha with ha' | ha'
      · have hab := h1.2.2 a ha' b (List.mem_singleton_self _)
        exact htrans _ _ _ hab hbx
      · rw [List.mem_singleton] at ha'
        rw [ha']
        exact hbx
  rw [insertOne, PW, List.pairwise_append]
  refine ⟨h1, ?_, ?_⟩
  · rw [List.pairwise_cons]
    exact ⟨hx2, h2⟩
  · intro a ha b hb
    rcases List.mem_cons.mp hb with rfl | hb'
    · exact h1x a ha
    · exact h12 a ha b hb'

theorem insertOne_filter {le : α → α → Bool} (q : α → Bool)
    (hq : ∀ a b, q a = true → q b = true → le a b = true) (x : α) (s : List α) :
    (insertOne le x s).filter q = s.filter q ++ [x].filter q := by
  set p : α → Bool := fun b => !(le b x) with hp
  have hsplit : s.rdropWhile p ++ s.rtakeWhile p = s := rdropWhile_append_rtakeWhile p s
  rw [insertOne, ← hp, List.filter_append, List.filter_cons]
  conv_rhs => rw [← hsplit]
  rw [List.filter_append]
  by_cases hqx : q x = true
  · have htk : (s.rtakeWhile p).filter q = [] := by
      rw [List.filter_eq_nil_iff]
      intro b hb
      have hpb := List.mem_rtakeWhile_imp hb
      rw [hp] at hpb
      simp only [Bool.not_eq_true'] at hpb
      intro hqb
      rw [hq b x hqb hqx] at hpb
      exact absurd hpb (by simp)
    rw [if_pos hqx, htk]
    simp [hqx]
  · have hqx' : q x = false := by simpa using hqx
    rw [if_neg hqx]
    simp [hqx']

theorem foldl_insertOne_perm (le : α → α → Bool) :
    ∀ (t s : List α), t.foldl (fun s x => insertOne le x s) s ~ s ++ t
  | [], s => by simp
  | x :: t, s => by
    have ih := foldl_insertOne_perm le t (insertOne le x s)
    calc (x :: t).foldl (fun s x => insertOne le x s) s
        = t.foldl (fun s x => insertOne le x s) (insertOne le x s) := rfl
      _ ~ insertOne le x s ++ t := ih
      _ ~ (x :: s) ++ t := (insertOne_perm le x s).append_right t
      _ ~ s ++ x :: t := List.perm_middle.symm

theorem foldl_insertOne_sorted {le : α → α → Bool} (htrans : LeTrans le)
    (htot : LeTotal le) :
    ∀ (t s : List α), PW le s → PW le (t.foldl (fun s x => insertOne le x s) s)
  | [], s, hs => hs
  | x :: t, s, hs =>
    foldl_insertOne_sorted htrans htot t (insertOne le x s) (insertOne_sorted htrans htot x s hs)

theorem foldl_insertOne_filter {le : α → α → Bool} (q : α → Bool)
    (hq : ∀ a b, q a = true → q b = true → le a b = true) :
    ∀ (t s : List α),
      (t.foldl (fun s x => insertOne le x s) s).filter q = s.filter q ++ t.filter q
  | [], s => by simp
  | x :: t, s => by
    have ih := foldl_insertOne_filter q hq t (insertOne le x s)
    calc ((x :: t).foldl (fun s x => insertOne le x s) s).filter q
        = (insertOne le x s).filter q ++ t.filter q := ih
      _ = (s.filter q ++ [x].filter q) ++ t.filter q := by rw [insertOne_filter q hq]
      _ = s.filter q ++ (x :: t).filter q := by
          rw [List.append_assoc, List.filter_cons]
          by_cases hqx : q x <;> simp [hqx]

theorem insertionSort_perm (le : α → α → Bool) [Inhabited α] (arr : List α) :
    insertionSort le arr ~ arr := by
  rw [insertionSort_eq_model]
  simpa using foldl_insertOne_perm le arr []

theorem insertionSort_sorted {le : α → α → Bool} [Inhabited α] (htrans : LeTrans le)
    (htot : LeTotal le) (arr : List α) : PW le (insertionSort le arr) := by
  rw [insertionSort_eq_model]
  exact foldl_insertOne_sorted htrans htot arr [] (List.Pairwise.nil)

theorem insertionSort_filter {le : α → α → Bool} [Inhabited α] (q : α → Bool)
    (hq : ∀ a b, q a = true → q b = true → le a b = true) (arr : List α) :
    (insertionSort le arr).filter q = arr.filter q := by
  rw [insertionSort_eq_model]
  simpa using foldl_insertOne_filter q hq arr []

/-! ### Merge sort: characterisation and properties

The cursor loop of `merge` computes the standard structural merge
(`List.merge` of the core library) of the two remaining suffixes,
appended to the accumulated result. -/

theorem mergeLoop_eq (le : α → α → Bool) (left right : List α) :
    ∀ (n i j : Nat) (res : List α), (left.length - i) + (right.length - j) ≤ n →
      mergeLoop le left right i j res =
        res ++ List.merge (left.drop i) (right.drop j) le := by
  intro n
  induction n with
  | zero =>
    intro i j res h
    rw [mergeLoop]
    rw [dif_neg (by omega)]
    have hi : left.length ≤ i := by omega
    rw [List.drop_eq_nil_of_le hi, List.nil_merge, List.append_assoc]
    simp
  | succ n ih =>
    intro i j res h
    rw [mergeLoop]
    split
    · next hij =>
      have hdl : left.drop i = left[i] :: left.drop (i + 1) :=
        List.drop_eq_getElem_cons hij.1
      have hdr : right.drop j = right[j] :: right.drop (j + 1) :=
        List.drop_eq_getElem_cons hij.2
      rw [hdl, hdr, List.cons_merge_cons]
      have hgl : left.get ⟨i, hij.1⟩ = left[i] := rfl
      have hgr : right.get ⟨j, hij.2⟩ = right[j] := rfl
      rw [hgl, hgr]
      split
      · rw [ih (i + 1) j (res ++ [left[i]]) (by omega), ← hdr]
        simp
      · rw [ih i (j + 1) (res ++ [right[j]]) (by omega), ← hdl]
        simp
    · next hij =>
      rcases Decidable.em (i < left.length) with hi | hi
      · have hj : right.length ≤ j := by omega
        rw [List.drop_eq_nil_of_le hj, List.merge_right, List.append_assoc]
        simp
      · have hi' : left.length ≤ i := by omega
        rw [List.drop_eq_nil_of_le hi', List.nil_merge, List.append_assoc]
        simp

theorem merge_eq (le : α → α → Bool) (left right : List α) :
    merge le left right = List.merge left right le := by
  rw [merge, mergeLoop_eq le left right (left.length + right.length) 0 0 [] (by omega)]
  simp

theorem merge_filter {le : α → α → Bool} (htrans : LeTrans le) (htot : LeTotal le)
    (q : α → Bool) (hq : ∀ a b, q a = true → q b = true → le a b = true) :
    ∀ (xs ys : List α), PW le xs → PW le ys →
      (List.merge xs ys le).filter q = xs.filter q ++ ys.filter q := by
  intro xs
  induction xs with
  | nil => intro ys _ _; simp
  | cons x xs ihx =>
    intro ys hxs hys
    induction ys with
    | nil => simp
    | cons y ys ihy =>
      rw [List.cons_merge_cons]
      split
      · next hxy =>
        rw [List.filter_cons, List.filter_cons]
        have hrec := ihx (y :: ys) (List.Pairwise.sublist (List.sublist_cons_self x xs) hxs) hys
        by_cases hqx : q x = true
        · rw [if_pos hqx, if_pos hqx, hrec]
          simp
        · rw [if_neg hqx, if_neg hqx, hrec]
      · next hxy =>
        have hrec := ihy (List.Pairwise.sublist (List.sublist_cons_self y ys) hys)
        by_cases hqy : q y = true
        · have hnone : (x :: xs).filter q = [] := by
            rw [List.filter_eq_nil_iff]
            intro b hb hqb
            have hxb : le x b = true := by
              rcases List.mem_cons.mp hb with rfl | hb'
              · exact htot.refl b
              · exact List.rel_of_pairwise_cons hxs hb'
            have hby : le b y = true := hq b y hqb hqy
            have : le x y = true := htrans _ _ _ hxb hby
            rw [this] at hxy
            exact absurd rfl hxy
          rw [List.filter_cons, if_pos hqy, hrec, hnone]
          rw [List.filter_cons, if_pos hqy]
          simp
        · have hqy' : q y = false := by simpa using hqy
          rw [List.filter_cons, if_neg hqy, hrec]
          simp [List.filter_cons, hqy']

theorem mergeSort_small (le : α → α → Bool) (arr : List α) (hlen : arr.length ≤ 1) :
    mergeSort le arr = arr := by
  rw [mergeSort, if_pos hlen]

theorem mergeSort_split (le : α → α → Bool) (arr : List α) (hlen : ¬arr.length ≤ 1) :
    mergeSort le arr =
      List.merge (mergeSort le (arr.take (arr.length / 2)))
        (mergeSort le (arr.drop (arr.length / 2))) le := by
  conv_lhs => rw [mergeSort]
  rw [if_neg hlen, merge_eq]

theorem mergeSort_perm_aux (le : α → α → Bool) :
    ∀ (n : Nat) (arr : List α), arr.length ≤ n → List.Perm (mergeSort le arr) arr := by
  intro n
  induction n with
  | zero =>
    intro arr h
    rw [mergeSort_small le arr (by omega)]
  | succ n ih =>
    intro arr h
    by_cases hlen : arr.length ≤ 1
    · rw [mergeSort_small le arr hlen]
    · have h1 : (arr.take (arr.length / 2)).length ≤ n := by
        simp only [List.length_take]
        omega
      have h2 : (arr.drop (arr.length / 2)).length ≤ n := by
        simp only [List.length_drop]
        omega
      have hp1 := ih (arr.take (arr.length / 2)) h1
      have hp2 := ih (arr.drop (arr.length / 2)) h2
      rw [mergeSort_split le arr hlen]
      calc List.merge (mergeSort le (arr.take (arr.length / 2)))
            (mergeSort le (arr.drop (arr.length / 2))) le
          ~ mergeSort le (arr.take (arr.length / 2)) ++
              mergeSort le (arr.drop (arr.length / 2)) := List.merge_perm_append le
        _ ~ arr.take (arr.length / 2) ++ arr.drop (arr.length / 2) := hp1.append hp2
        _ = arr := List.take_append_drop _ arr

theorem mergeSort_perm (le : α → α → Bool) (arr : List α) :
    List.Perm (mergeSort le arr) arr :=
  mergeSort_perm_aux le arr.length arr (Nat.le_refl _)

theorem mergeSort_length (le : α → α → Bool) (arr : List α) :
    (mergeSort le arr).length = arr.length :=
  (mergeSort_perm le arr).length_eq

theorem small_sorted (le : α → α → Bool) (arr : List α) (hlen : arr.length ≤ 1) :
    PW le arr := by
  match arr, hlen with
  | [], _ => exact List.Pairwise.nil
  | [a], _ => exact List.pairwise_singleton _ a
  | a :: b :: t, h => simp at h

theorem mergeSort_sorted_aux {le : α → α → Bool} (htrans : LeTrans le) (htot : LeTotal le) :
    ∀ (n : Nat) (arr : List α), arr.length ≤ n → PW le (mergeSort le arr) := by
  intro n
  induction n with
  | zero =>
    intro arr h
    rw [mergeSort_small le arr (by omega)]
    exact small_sorted le arr (by omega)
  | succ n ih =>
    intro arr h
    by_cases hlen : arr.length ≤ 1
    · rw [mergeSort_small le arr hlen]
      exact small_sorted le arr hlen
    · have h1 : (arr.take (arr.length / 2)).length ≤ n := by
        simp only [List.length_take]
        omega
      have h2 : (arr.drop (arr.length / 2)).length ≤ n := by
        simp only [List.length_drop]
        omega
      have hs1 := ih (arr.take (arr.length / 2)) h1
      have hs2 := ih (arr.drop (arr.length / 2)) h2
      rw [mergeSort_split le arr hlen]
      exact List.sorted_merge
        (fun a b c hab hbc => htrans a b c hab hbc)
        (fun a b => by
          rcases htot a b with h' | h'
          · simp [h']
          · simp [h'])
        _ _ hs1 hs2

theorem mergeSort_sorted {le : α → α → Bool} (htrans : LeTrans le) (htot : LeTotal le)
    (arr : List α) : PW le (mergeSort le arr) :=
  mergeSort_sorted_aux htrans htot arr.length arr (Nat.le_refl _)

theorem mergeSort_filter_aux {le : α → α → Bool} (htrans : LeTrans le) (htot : LeTotal le)
    (q : α → Bool) (hq : ∀ a b, q a = true → q b = true → le a b = true) :
    ∀ (n : Nat) (arr : List α), arr.length ≤ n →
      (mergeSort le arr).filter q = arr.filter q := by
  intro n
  induction n with
  | zero =>
    intro arr h
    rw [mergeSort_small le arr (by omega)]
  | succ n ih =>
    intro arr h
    by_cases hlen : arr.length ≤ 1
    · rw [mergeSort_small le arr hlen]
    · have h1 : (arr.take (arr.length / 2)).length ≤ n := by
        simp only [List.length_take]
        omega
      have h2 : (arr.drop (arr.length / 2)).length ≤ n := by
        simp only [List.length_drop]
        omega
      have hf1 := ih (arr.take (arr.length / 2)) h1
      have hf2 := ih (arr.drop (arr.length / 2)) h2
      have hs1 := mergeSort_sorted htrans htot (arr.take (arr.length / 2))
      have hs2 := mergeSort_sorted htrans htot (arr.drop (arr.length / 2))
      rw [mergeSort_split le arr hlen, merge_filter htrans htot q hq _ _ hs1 hs2, hf1, hf2,
        ← List.filter_append, List.take_append_drop]

theorem mergeSort_filter {le : α → α → Bool} (htrans : LeTrans le) (htot : LeTotal le)
    (q : α → Bool) (hq : ∀ a b, q a = true → q b = true → le a b = true)
    (arr : List α) : (mergeSort le arr).filter q = arr.filter q :=
  mergeSort_filter_aux htrans htot q hq arr.length arr (Nat.le_refl _)

/-! ### Bubble sort: functional characterisation and properties

One inner pass of `bubbleSort`, carrying the element `x` currently being
compared rightward, is modelled by `passFS`, which returns the resulting
list together with the swapped flag. -/

/-- Functional model of a bubble pass that has reached element `x` with
the elements `t` still to scan; returns the passed list and whether any
swap occurred from this point on. -/
def passFS (le : α → α → Bool) (x : α) : List α → List α × Bool
  | [] => ([x], false)
  | y :: t =>
    if le x y then
      ((passFS le y t).1.cons x, (passFS le y t).2)
    else
      ((passFS le x t).1.cons y, true)

theorem bubblePass_eq (le : α → α → Bool) [Inhabited α] :
    ∀ (t : List α) (x : α) (done back : List α) (sw : Bool),
      bubblePass le (done ++ x :: t ++ back) sw done.length (done.length + t.length) =
        (done ++ (passFS le x t).1 ++ back, sw || (passFS le x t).2) := by
  intro t
  induction t with
  | nil =>
    intro x done back sw
    rw [bubblePass]
    rw [if_neg (by simp)]
    simp [passFS]
  | cons y t ih =>
    intro x done back sw
    rw [bubblePass]
    rw [if_pos (by simp)]
    have hget0 : (done ++ x :: (y :: t) ++ back).getD done.length default = x := by
      have h' := getD_mid done x (y :: t ++ back)
      simpa using h'
    have hget1 : (done ++ x :: (y :: t) ++ back).getD (done.length + 1) default = y := by
      have h' := getD_mid (done ++ [x]) y (t ++ back)
      simpa using h'
    rw [hget0, hget1]
    by_cases hxy : le x y = true
    · rw [if_neg (by simp [hxy])]
      have harr : done ++ x :: (y :: t) ++ back = (done ++ [x]) ++ y :: t ++ back := by
        simp
      rw [harr]
      have hlen : done.length + (y :: t).length = (done ++ [x]).length + t.length := by
        simp
        omega
      have hdl : done.length + 1 = (done ++ [x]).length := by simp
      rw [hlen, hdl, ih y (done ++ [x]) back sw]
      simp [passFS, hxy]
    · have hxy' : le x y = false := by simpa using hxy
      rw [if_pos (by simp [hxy'])]
      have hswap : swapN (done ++ x :: (y :: t) ++ back) done.length (done.length + 1) =
          (done ++ [y]) ++ x :: t ++ back := by
        rw [swapN, hget0, hget1]
        have hs1 : (done ++ x :: (y :: t) ++ back).set done.length y =
            done ++ y :: (y :: t) ++ back := by
          have h' := set_mid done x y (y :: t ++ back)
          simpa using h'
        rw [hs1]
        have h' := set_mid (done ++ [y]) y x (t ++ back)
        simpa using h'
      rw [hswap]
      have hlen : done.length + (y :: t).length = (done ++ [y]).length + t.length := by
        simp
        omega
      have hdl : done.length + 1 = (done ++ [y]).length := by simp
      rw [hlen, hdl, ih x (done ++ [y]) back true]
      simp [passFS, hxy']

theorem passFS_perm (le : α → α → Bool) :
    ∀ (t : List α) (x : α), List.Perm (passFS le x t).1 (x :: t) := by
  intro t
  induction t with
  | nil => intro x; simp [passFS]
  | cons y t ih =>
    intro x
    rw [passFS]
    by_cases hxy : le x y = true
    · rw [if_pos hxy]
      exact ((ih y).cons x).trans (List.Perm.refl _)
    · rw [if_neg hxy]
      calc ((passFS le x t).1.cons y)
          ~ y :: x :: t := (ih x).cons y
        _ ~ x :: y :: t := List.Perm.swap x y t

theorem passFS_length (le : α → α → Bool) (t : List α) (x : α) :
    (passFS le x t).1.length = t.length + 1 := by
  have h := (passFS_perm le t x).length_eq
  simpa using h

theorem passFS_filter {le : α → α → Bool} (q : α → Bool)
    (hq : ∀ a b, q a = true → q b = true → le a b = true) :
    ∀ (t : List α) (x : α), (passFS le x t).1.filter q = (x :: t).filter q := by
  intro t
  induction t with
  | nil => intro x; simp [passFS]
  | cons y t ih =>
    intro x
    rw [passFS]
    by_cases hxy : le x y = true
    · rw [if_pos hxy]
      show ((passFS le y t).1.cons x).filter q = _
      rw [List.filter_cons, ih y]
      by_cases hqx : q x = true <;> simp [List.filter_cons, hqx]
    · rw [if_neg hxy]
      show ((passFS le x t).1.cons y).filter q = _
      rw [List.filter_cons, ih x]
      by_cases hqy : q y = true
      · have hqx : q x = false := by
          by_cases h' : q x = true
          · rw [hq x y h' hqy] at hxy
            exact absurd rfl hxy
          · simpa using h'
        simp [List.filter_cons, hqy, hqx]
      · have hqy' : q y = false := by simpa using hqy
        by_cases hqx : q x = true <;> simp [List.filter_cons, hqy', hqx]

theorem passFS_concat {le : α → α → Bool} (htrans : LeTrans le) (htot : LeTotal le) :
    ∀ (t : List α) (x : α), ∃ init m, (passFS le x t).1 = init ++ [m] ∧
      ∀ b ∈ (passFS le x t).1, le b m = true := by
  intro t
  induction t with
  | nil =>
    intro x
    exact ⟨[], x, by simp [passFS], by
      intro b hb
      rw [passFS] at hb
      simp only [List.mem_singleton] at hb
      rw [hb]
      exact htot.refl x⟩
  | cons y t ih =>
    intro x
    rw [passFS]
    by_cases hxy : le x y = true
    · rw [if_pos hxy]
      obtain ⟨init, m, hshape, hdom⟩ := ih y
      refine ⟨x :: init, m, by simp [hshape], ?_⟩
      intro b hb
      rcases List.mem_cons.mp hb with rfl | hb'
      · have hym : le y m = true := by
          apply hdom
          have : y ∈ y :: t := List.mem_cons_self y t
          exact ((passFS_perm le t y).mem_iff).mpr this
        exact htrans _ _ _ hxy hym
      · exact hdom b hb'
    · rw [if_neg hxy]
      obtain ⟨init, m, hshape, hdom⟩ := ih x
      refine ⟨y :: init, m, by simp [hshape], ?_⟩
      intro b hb
      rcases List.mem_cons.mp hb with rfl | hb'
      · have hyx : le b x = true := by
          rcases htot b x with h' | h'
          · exact h'
          · rw [h'] at hxy
            exact absurd rfl hxy
        have hxm : le x m = true := by
          apply hdom
          have : x ∈ x :: t := List.mem_cons_self x t
          exact ((passFS_perm le t x).mem_iff).mpr this
        exact htrans _ _ _ hyx hxm
      · exact hdom b hb'

theorem passFS_noswap {le : α → α → Bool} (htrans : LeTrans le) :
    ∀ (t : List α) (x : α), (passFS le x t).2 = false →
      (passFS le x t).1 = x :: t ∧ PW le (x :: t) := by
  intro t
  induction t with
  | nil =>
    intro x _
    exact ⟨by simp [passFS], List.pairwise_singleton _ x⟩
  | cons y t ih =>
    intro x hsw
    rw [passFS] at hsw ⊢
    by_cases hxy : le x y = true
    · rw [if_pos hxy] at hsw ⊢
      simp only at hsw
      obtain ⟨hshape, hpw⟩ := ih y hsw
      constructor
      · simp [hshape]
      · rw [PW, List.pairwise_cons]
        constructor
        · intro b hb
          rcases List.mem_cons.mp hb with rfl | hb'
          · exact hxy
          · exact htrans _ _ _ hxy (List.rel_of_pairwise_cons hpw hb')
        · exact hpw
    · rw [if_neg hxy] at hsw
      simp at hsw
theorem bubbleSortLoop_perm_filter {le : α → α → Bool} [Inhabited α] (q : α → Bool)
    (hq : ∀ a b, q a = true → q b = true → le a b = true) :
    ∀ (fuel i n : Nat) (arr : List α), n = arr.length → n - i ≤ fuel →
      List.Perm (bubbleSortLoop le arr n i) arr ∧
      (bubbleSortLoop le arr n i).filter q = arr.filter q := by
  intro fuel
  induction fuel with
  | zero =>
    intro i n arr hn hf
    rw [bubbleSortLoop, if_neg (by omega)]
    exact ⟨List.Perm.refl _, rfl⟩
  | succ fuel ih =>
    intro i n arr hn hf
    rw [bubbleSortLoop]
    by_cases hguard : i + 1 < n
    · rw [if_pos hguard]
      cases hft : arr.take (n - i) with
      | nil =>
        exfalso
        have hl := congrArg List.length hft
        simp only [List.length_take, List.length_nil] at hl
        omega
      | cons x t =>
        have harr : arr = x :: t ++ arr.drop (n - i) := by
          conv_lhs => rw [← List.take_append_drop (n - i) arr, hft]
        have htlen : t.length = n - i - 1 := by
          have hl := congrArg List.length hft
          simp only [List.length_take, List.length_cons] at hl
          omega
        have hpass := bubblePass_eq le t x [] (arr.drop (n - i)) false
        simp only [List.nil_append, List.length_nil, Nat.zero_add, Bool.false_or] at hpass
        have hpass' : bubblePass le arr false 0 (n - i - 1) =
            ((passFS le x t).1 ++ arr.drop (n - i), (passFS le x t).2) := by
          conv_lhs => rw [harr, show n - i - 1 = t.length from htlen.symm]
          exact hpass
        simp only [hpass']
        have hperm1 : List.Perm ((passFS le x t).1 ++ arr.drop (n - i)) arr := by
          conv_rhs => rw [harr]
          exact (passFS_perm le t x).append_right _
        have hfilter1 : ((passFS le x t).1 ++ arr.drop (n - i)).filter q = arr.filter q := by
          conv_rhs => rw [harr]
          rw [List.filter_append, passFS_filter q hq t x]
          by_cases hqx : q x = true <;> simp [List.filter_cons, List.filter_append, hqx]
        by_cases hsw : (passFS le x t).2 = true
        · rw [if_pos hsw]
          have hn' : n = ((passFS le x t).1 ++ arr.drop (n - i)).length := by
            rw [List.length_append, passFS_length, List.length_drop]
            omega
          have hf' : n - (i + 1) ≤ fuel := by omega
          obtain ⟨hp, hfq⟩ := ih (i + 1) n ((passFS le x t).1 ++ arr.drop (n - i)) hn' hf'
          exact ⟨hp.trans hperm1, by rw [hfq, hfilter1]⟩
        · rw [if_neg hsw]
          exact ⟨hperm1, hfilter1⟩
    · rw [if_neg hguard]
      exact ⟨List.Perm.refl _, rfl⟩

theorem bubbleSortLoop_sorted {le : α → α → Bool} [Inhabited α]
    (htrans : LeTrans le) (htot : LeTotal le) :
    ∀ (fuel i n : Nat) (arr : List α), n = arr.length → n - i ≤ fuel →
      PW le (arr.drop (n - i)) →
      (∀ a ∈ arr.take (n - i), ∀ b ∈ arr.drop (n - i), le a b = true) →
      PW le (bubbleSortLoop le arr n i) := by
  intro fuel
  induction fuel with
  | zero =>
    intro i n arr hn hf hdrop hcross
    rw [bubbleSortLoop, if_neg (by omega)]
    have h0 : n - i = 0 := by omega
    rw [h0] at hdrop
    simpa using hdrop
  | succ fuel ih =>
    intro i n arr hn hf hdrop hcross
    rw [bubbleSortLoop]
    by_cases hguard : i + 1 < n
    · rw [if_pos hguard]
      cases hft : arr.take (n - i) with
      | nil =>
        exfalso
        have hl := congrArg List.length hft
        simp only [List.length_take, List.length_nil] at hl
        omega
      | cons x t =>
        have harr : arr = x :: t ++ arr.drop (n - i) := by
          conv_lhs => rw [← List.take_append_drop (n - i) arr, hft]
        have htlen : t.length = n - i - 1 := by
          have hl := congrArg List.length hft
          simp only [List.length_take, List.length_cons] at hl
          omega
        have hpass := bubblePass_eq le t x [] (arr.drop (n - i)) false
        simp only [List.nil_append, List.length_nil, Nat.zero_add, Bool.false_or] at hpass
        have hpass' : bubblePass le arr false 0 (n - i - 1) =
            ((passFS le x t).1 ++ arr.drop (n - i), (passFS le x t).2) := by
          conv_lhs => rw [harr, show n - i - 1 = t.length from htlen.symm]
          exact hpass
        simp only [hpass']
        have hmemf : ∀ a ∈ (passFS le x t).1, a ∈ arr.take (n - i) := by
          intro a ha
          rw [hft]
          exact ((passFS_perm le t x).mem_iff).mp ha
        by_cases hsw : (passFS le x t).2 = true
        · rw [if_pos hsw]
          obtain ⟨init, m, hshape, hdom⟩ := passFS_concat htrans htot t x
          have hinitlen : init.length = n - i - 1 := by
            have hl := congrArg List.length hshape
            rw [passFS_length] at hl
            simp only [List.length_append, List.length_cons, List.length_nil] at hl
            omega
          have hmm : m ∈ (passFS le x t).1 := by
            rw [hshape]
            exact List.mem_append.mpr (Or.inr (List.mem_singleton_self m))
          have harr' : (passFS le x t).1 ++ arr.drop (n - i) =
              init ++ (m :: arr.drop (n - i)) := by
            rw [hshape]
            simp
          apply ih (i + 1) n ((passFS le x t).1 ++ arr.drop (n - i))
          · rw [List.length_append, passFS_length, List.length_drop]
            omega
          · omega
          · have hdropeq : ((passFS le x t).1 ++ arr.drop (n - i)).drop (n - (i + 1)) =
                m :: arr.drop (n - i) := by
              rw [harr', show n - (i + 1) = init.length from by omega]
              exact List.drop_left init _
            rw [hdropeq, PW, List.pairwise_cons]
            refine ⟨?_, hdrop⟩
            intro b hb
            exact hcross m (hmemf m hmm) b hb
          · have htakeeq : ((passFS le x t).1 ++ arr.drop (n - i)).take (n - (i + 1)) =
                init := by
              rw [harr', show n - (i + 1) = init.length from by omega]
              exact List.take_left init _
            have hdropeq : ((passFS le x t).1 ++ arr.drop (n - i)).drop (n - (i + 1)) =
                m :: arr.drop (n - i) := by
              rw [harr', show n - (i + 1) = init.length from by omega]
              exact List.drop_left init _
            rw [htakeeq, hdropeq]
            intro a ha b hb
            have hapf : a ∈ (passFS le x t).1 := by
              rw [hshape]
              exact List.mem_append.mpr (Or.inl ha)
            rcases List.mem_cons.mp hb with rfl | hb'
            · exact hdom a hapf
            · exact hcross a (hmemf a hapf) b hb'
        · rw [if_neg hsw]
          have hsw' : (passFS le x t).2 = false := by simpa using hsw
          obtain ⟨hshape, hpw⟩ := passFS_noswap htrans t x hsw'
          rw [hshape, ← hft, PW, List.pairwise_append]
          refine ⟨by rw [hft]; exact hpw, hdrop, hcross⟩
    · rw [if_neg hguard]
      conv => rw [← List.take_append_drop (n - i) arr]
      rw [PW, List.pairwise_append]
      refine ⟨?_, hdrop, hcross⟩
      exact small_sorted le _ (by simp [List.length_take]; omega)

theorem bubbleSort_perm (le : α → α → Bool) [Inhabited α] (arr : List α) :
    List.Perm (bubbleSort le arr) arr := by
  rw [bubbleSort]
  exact (bubbleSortLoop_perm_filter (fun _ => false)
    (fun a b h _ => absurd h (by simp)) arr.length 0 arr.length arr rfl (by omega)).1

theorem bubbleSort_filter {le : α → α → Bool} [Inhabited α] (q : α → Bool)
    (hq : ∀ a b, q a = true → q b = true → le a b = true) (arr : List α) :
    (bubbleSort le arr).filter q = arr.filter q := by
  rw [bubbleSort]
  exact (bubbleSortLoop_perm_filter q hq arr.length 0 arr.length arr rfl (by omega)).2

theorem bubbleSort_sorted {le : α → α → Bool} [Inhabited α]
    (htrans : LeTrans le) (htot : LeTotal le) (arr : List α) :
    PW le (bubbleSort le arr) := by
  rw [bubbleSort]
  apply bubbleSortLoop_sorted htrans htot arr.length 0 arr.length arr rfl (by omega)
  · simp [PW]
  · intro a _ b hb
    simp at hb

/-! ### Selection sort: loop invariants and properties -/

theorem swapN_getD [Inhabited α] (l : List α) (a b k : Nat)
    (ha : a < l.length) (hb : b < l.length) :
    (swapN l a b).getD k default =
      if k = b then l.getD a default
      else if k = a then l.getD b default
      else l.getD k default := by
  rw [swapN]
  simp only [List.getD_eq_getElem?_getD]
  rcases Decidable.em (k = b) with rfl | hkb
  · rw [if_pos rfl]
    rw [List.getElem?_set_self
      (show k < (l.set a (l[k]?.getD default)).length by simpa using hb)]
    simp
  · rw [if_neg hkb]
    rw [List.getElem?_set_ne (show b ≠ k from fun h' => hkb h'.symm)]
    rcases Decidable.em (k = a) with rfl | hka
    · rw [if_pos rfl, List.getElem?_set_self ha]
      simp
    · rw [if_neg hka, List.getElem?_set_ne (show a ≠ k from fun h' => hka h'.symm)]

theorem PW_of_pointwise [Inhabited α] {le : α → α → Bool} {l : List α}
    (h : ∀ p r : Nat, p < r → r < l.length →
      le (l.getD p default) (l.getD r default) = true) : PW le l := by
  rw [PW, List.pairwise_iff_getElem]
  intro i j hi hj hij
  have h' := h i j hij hj
  rwa [List.getD_eq_getElem?_getD, List.getD_eq_getElem?_getD,
    List.getElem?_eq_getElem hi, List.getElem?_eq_getElem hj] at h'

theorem minIdxLoop_spec {le : α → α → Bool} [Inhabited α]
    (htrans : LeTrans le) (htot : LeTotal le) (arr : List α) :
    ∀ (fuel j minIdx : Nat), arr.length - j ≤ fuel → minIdx < arr.length →
      (minIdxLoop le arr minIdx j = minIdx ∨
        (j ≤ minIdxLoop le arr minIdx j ∧ minIdxLoop le arr minIdx j < arr.length)) ∧
      le (arr.getD (minIdxLoop le arr minIdx j) default) (arr.getD minIdx default) = true ∧
      ∀ k, j ≤ k → k < arr.length →
        le (arr.getD (minIdxLoop le arr minIdx j) default) (arr.getD k default) = true := by
  intro fuel
  induction fuel with
  | zero =>
    intro j minIdx hf hm
    rw [minIdxLoop, if_neg (by omega)]
    exact ⟨Or.inl rfl, htot.refl _, fun k hk hk' => absurd hk' (by omega)⟩
  | succ fuel ih =>
    intro j minIdx hf hm
    rw [minIdxLoop]
    by_cases hj : j < arr.length
    · rw [if_pos hj]
      by_cases hc : le (arr.getD minIdx default) (arr.getD j default) = true
      · rw [if_neg (by rw [hc]; simp)]
        obtain ⟨ho, hle, hall⟩ := ih (j + 1) minIdx (by omega) hm
        refine ⟨?_, hle, ?_⟩
        · rcases ho with h' | h'
          · exact Or.inl h'
          · exact Or.inr ⟨by omega, h'.2⟩
        · intro k hk hk'
          rcases Decidable.em (k = j) with rfl | hkj
          · exact htrans _ _ _ hle hc
          · exact hall k (by omega) hk'
      · have hc' : le (arr.getD minIdx default) (arr.getD j default) = false := by
          simpa using hc
        rw [if_pos (by rw [hc']; simp)]
        obtain ⟨ho, hle, hall⟩ := ih (j + 1) j (by omega) hj
        have hji : le (arr.getD j default) (arr.getD minIdx default) = true := by
          rcases htot (arr.getD j default) (arr.getD minIdx default) with h' | h'
          · exact h'
          · rw [h'] at hc'
            exact absurd hc' (by simp)
        refine ⟨?_, htrans _ _ _ hle hji, ?_⟩
        · rcases ho with h' | h'
          · exact Or.inr ⟨by omega, by rw [h']; exact hj⟩
          · exact Or.inr ⟨by omega, h'.2⟩
        · intro k hk hk'
          rcases Decidable.em (k = j) with rfl | hkj
          · exact hle
          · exact hall k (by omega) hk'
    · rw [if_neg hj]
      exact ⟨Or.inl rfl, htot.refl _, fun k hk hk' => absurd hk' (by omega)⟩

theorem selectionSortLoop_spec {le : α → α → Bool} [Inhabited α]
    (htrans : LeTrans le) (htot : LeTotal le) :
    ∀ (fuel i : Nat) (arr : List α), arr.length - i ≤ fuel →
      (∀ p r : Nat, p < r → r < i →
        le (arr.getD p default) (arr.getD r default) = true) →
      (∀ p k : Nat, p < i → i ≤ k → k < arr.length →
        le (arr.getD p default) (arr.getD k default) = true) →
      (∀ p r : Nat, p < r → r < (selectionSortLoop le arr i).length →
        le ((selectionSortLoop le arr i).getD p default)
          ((selectionSortLoop le arr i).getD r default) = true) ∧
      List.Perm (selectionSortLoop le arr i) arr := by
  intro fuel
  induction fuel with
  | zero =>
    intro i arr hf inv1 _
    rw [selectionSortLoop, dif_neg (by omega)]
    exact ⟨fun p r hpr hr => inv1 p r hpr (by omega), List.Perm.refl _⟩
  | succ fuel ih =>
    intro i arr hf inv1 inv2
    rw [selectionSortLoop]
    by_cases hguard : i + 1 < arr.length
    · rw [dif_pos hguard]
      have hi : i < arr.length := by omega
      obtain ⟨hmo, hmi, hmall⟩ :=
        minIdxLoop_spec htrans htot arr arr.length (i + 1) i (by omega) hi
      set m := minIdxLoop le arr i (i + 1) with hmdef
      have him : i ≤ m := by
        rcases hmo with h' | h'
        · omega
        · omega
      have hmlt : m < arr.length := by
        rcases hmo with h' | h'
        · omega
        · exact h'.2
      have hminAll : ∀ k, i ≤ k → k < arr.length →
          le (arr.getD m default) (arr.getD k default) = true := by
        intro k hk hk'
        rcases Decidable.em (k = i) with rfl | hki
        · exact hmi
        · exact hmall k (by omega) hk'
      set arr' := swapN arr i m with harr'
      have hlen' : arr'.length = arr.length := by
        rw [harr', swapN_length]
      have hget : ∀ k : Nat, arr'.getD k default =
          if k = m then arr.getD i default
          else if k = i then arr.getD m default
          else arr.getD k default := by
        intro k
        rw [harr', swapN_getD arr i m k hi hmlt]
      have hgi : arr'.getD i default = arr.getD m default := by
        rw [hget i]
        by_cases him' : i = m
        · rw [if_pos him', him']
        · rw [if_neg him', if_pos rfl]
      have hglt : ∀ p, p < i → arr'.getD p default = arr.getD p default := by
        intro p hp
        rw [hget p, if_neg (by omega), if_neg (by omega)]
      have inv1' : ∀ p r : Nat, p < r → r < i + 1 →
          le (arr'.getD p default) (arr'.getD r default) = true := by
        intro p r hpr hr
        rcases Decidable.em (r = i) with rfl | hri
        · rw [hglt p (by omega), hgi]
          exact inv2 p m (by omega) him hmlt
        · rw [hglt p (by omega), hglt r (by omega)]
          exact inv1 p r hpr (by omega)
      have inv2' : ∀ p k : Nat, p < i + 1 → i + 1 ≤ k → k < arr'.length →
          le (arr'.getD p default) (arr'.getD k default) = true := by
        intro p k hp hk hk'
        rw [hlen'] at hk'
        have hgk : arr'.getD k default =
            if k = m then arr.getD i default else arr.getD k default := by
          rw [hget k]
          by_cases hkm : k = m
          · rw [if_pos hkm, if_pos hkm]
          · rw [if_neg hkm, if_neg hkm, if_neg (by omega)]
        by_cases hpi : p = i
        · rw [hpi, hgi, hgk]
          by_cases hkm : k = m
          · rw [if_pos hkm]
            exact hmi
          · rw [if_neg hkm]
            exact hminAll k (by omega) hk'
        · rw [hglt p (by omega), hgk]
          by_cases hkm : k = m
          · rw [if_pos hkm]
            exact inv2 p i (by omega) (by omega) hi
          · rw [if_neg hkm]
            exact inv2 p k (by omega) (by omega) hk'
      obtain ⟨hsorted, hperm⟩ := ih (i + 1) arr' (by omega) inv1' inv2'
      exact ⟨hsorted, hperm.trans (swapN_perm arr i m hi hmlt)⟩
    · rw [dif_neg hguard]
      refine ⟨?_, List.Perm.refl _⟩
      intro p r hpr hr
      rcases Decidable.em (r = i) with rfl | hri
      · exact inv2 p r (by omega) (by omega) hr
      · exact inv1 p r hpr (by omega)

theorem selectionSort_sorted {le : α → α → Bool} [Inhabited α]
    (htrans : LeTrans le) (htot : LeTotal le) (arr : List α) :
    PW le (selectionSort le arr) := by
  rw [selectionSort]
  apply PW_of_pointwise
  exact (selectionSortLoop_spec htrans htot arr.length 0 arr (by omega)
    (fun p r _ hr => absurd hr (by omega))
    (fun p k hp _ _ => absurd hp (by omega))).1

theorem selectionSort_perm {le : α → α → Bool} [Inhabited α]
    (htrans : LeTrans le) (htot : LeTotal le) (arr : List α) :
    List.Perm (selectionSort le arr) arr := by
  rw [selectionSort]
  exact (selectionSortLoop_spec htrans htot arr.length 0 arr (by omega)
    (fun p r _ hr => absurd hr (by omega))
    (fun p k hp _ _ => absurd hp (by omega))).2

/-! ### Quicksort: access lemmas, partition invariants and properties -/

/-- The value at an in-range `Int` index (junk `default` out of range;
only used at in-range indices). -/
def getN [Inhabited α] (l : List α) (k : Int) : α :=
  l.getD k.toNat default

theorem getI_in [Inhabited α] (l : List α) (k : Int)
    (h0 : 0 ≤ k) (hk : k < (l.length : Int)) : getI l k = some (getN l k) := by
  rw [getI, if_pos h0, getN]
  have hlt : k.toNat < l.length := by omega
  rw [List.getElem?_eq_getElem hlt, List.getD_eq_getElem?_getD,
    List.getElem?_eq_getElem hlt]
  simp

theorem setI_in (l : List α) (k : Int) (v : α) (h0 : 0 ≤ k) :
    setI l k v = l.set k.toNat v := by
  rw [setI, if_pos h0]

theorem swapI_in [Inhabited α] (l : List α) (a b : Int)
    (ha0 : 0 ≤ a) (ha : a < (l.length : Int)) (hb0 : 0 ≤ b) (hb : b < (l.length : Int)) :
    swapI l a b = swapN l a.toNat b.toNat := by
  rw [swapI, getI_in l a ha0 ha, getI_in l b hb0 hb]
  show setI (setI l a (getN l b)) b (getN l a) = swapN l a.toNat b.toNat
  rw [setI_in _ _ _ ha0, setI_in _ _ _ hb0]
  rfl

theorem oLt_some_some (le : α → α → Bool) (a b : α) :
    oLt le (some a) (some b) = !(le b a) := rfl

/-- Postcondition of the three-way partition loop relative to the array
`arr0` it started from: length and multiset are preserved, positions
outside `[low, high]` are untouched, the returned boundaries `lt`, `gt`
lie in `[low, high]`, the three regions hold the `< pivot`,
`== pivot` and `> pivot` values, and any Boolean predicate holding on all
of `[low, high]` still holds there. -/
def PartOut (le : α → α → Bool) [Inhabited α] (pv : α) (low high : Int) (n : Nat)
    (arr0 : List α) (out : List α × Int × Int) : Prop :=
  out.1.length = n ∧
  List.Perm out.1 arr0 ∧
  (∀ k : Nat, ((k : Int) < low ∨ high < (k : Int)) →
    out.1.getD k default = arr0.getD k default) ∧
  low ≤ out.2.1 ∧ out.2.1 ≤ out.2.2 ∧ out.2.2 ≤ high ∧
  (∀ k : Int, low ≤ k → k < out.2.1 → le pv (getN out.1 k) = false) ∧
  (∀ k : Int, out.2.1 ≤ k → k ≤ out.2.2 →
    le pv (getN out.1 k) = true ∧ le (getN out.1 k) pv = true) ∧
  (∀ k : Int, out.2.2 < k → k ≤ high → le (getN out.1 k) pv = false) ∧
  (∀ (q : α → Bool), (∀ k : Int, low ≤ k → k ≤ high → q (getN arr0 k) = true) →
    ∀ k : Int, low ≤ k → k ≤ high → q (getN out.1 k) = true)

theorem PartOut_compose {le : α → α → Bool} [Inhabited α] {pv : α} {low high : Int}
    {n : Nat} {arr arr1 : List α} {out : List α × Int × Int}
    (h : PartOut le pv low high n arr1 out)
    (hperm : List.Perm arr1 arr)
    (hframe : ∀ k : Nat, ((k : Int) < low ∨ high < (k : Int)) →
      arr1.getD k default = arr.getD k default)
    (hq : ∀ (q : α → Bool), (∀ k : Int, low ≤ k → k ≤ high → q (getN arr k) = true) →
      ∀ k : Int, low ≤ k → k ≤ high → q (getN arr1 k) = true) :
    PartOut le pv low high n arr out := by
  obtain ⟨h1, h2, h3, h4, h5, h6, h7, h8, h9, h10⟩ := h
  exact ⟨h1, h2.trans hperm,
    fun k hk => (h3 k hk).trans (hframe k hk),
    h4, h5, h6, h7, h8, h9,
    fun q hqa k hk1 hk2 => h10 q (hq q hqa) k hk1 hk2⟩

theorem swap_range_facts [Inhabited α] (arr : List α) (a b low high : Int) (n : Nat)
    (harr : arr.length = n) (hl0 : 0 ≤ low) (hhn : high < (n : Int))
    (ha1 : low ≤ a) (ha2 : a ≤ high) (hb1 : low ≤ b) (hb2 : b ≤ high) :
    List.Perm (swapI arr a b) arr ∧
    (∀ k : Nat, ((k : Int) < low ∨ high < (k : Int)) →
      (swapI arr a b).getD k default = arr.getD k default) ∧
    (∀ (q : α → Bool), (∀ k : Int, low ≤ k → k ≤ high → q (getN arr k) = true) →
      ∀ k : Int, low ≤ k → k ≤ high → q (getN (swapI arr a b) k) = true) ∧
    (swapI arr a b).length = n ∧
    (∀ k : Int, 0 ≤ k →
      getN (swapI arr a b) k =
        if k = b then getN arr a else if k = a then getN arr b
        else getN arr k) := by
  have ha0 : 0 ≤ a := le_trans hl0 ha1
  have hb0 : 0 ≤ b := le_trans hl0 hb1
  have haI : a < (arr.length : Int) := by omega
  have hbI : b < (arr.length : Int) := by omega
  have haN : a.toNat < arr.length := by omega
  have hbN : b.toNat < arr.length := by omega
  have hsw : swapI arr a b = swapN arr a.toNat b.toNat := swapI_in arr a b ha0 haI hb0 hbI
  have hpoint : ∀ k : Int, 0 ≤ k →
      getN (swapI arr a b) k =
        if k = b then getN arr a else if k = a then getN arr b
        else getN arr k := by
    intro k hk0
    rw [getN, hsw, swapN_getD arr _ _ k.toNat haN hbN]
    by_cases hkb : k = b
    · rw [if_pos (by omega), if_pos hkb]
      rfl
    · rw [if_neg (by omega), if_neg hkb]
      by_cases hka : k = a
      · rw [if_pos (by omega), if_pos hka]
        rfl
      · rw [if_neg (by omega), if_neg hka]
        rfl
  refine ⟨?_, ?_, ?_, ?_, hpoint⟩
  · rw [hsw]
    exact swapN_perm arr _ _ haN hbN
  · intro k hk
    rw [hsw, swapN_getD arr _ _ k haN hbN, if_neg (by omega), if_neg (by omega)]
  · intro q hq k hk1 hk2
    rw [hpoint k (by omega)]
    by_cases hkb : k = b
    · rw [if_pos hkb]
      exact hq a ha1 ha2
    · rw [if_neg hkb]
      by_cases hka : k = a
      · rw [if_pos hka]
        exact hq b hb1 hb2
      · rw [if_neg hka]
        exact hq k hk1 hk2
  · rw [hsw, swapN_length]
    exact harr

theorem partitionLoop_spec {le : α → α → Bool} [Inhabited α] (pv : α) (low high : Int)
    (n : Nat) (hl0 : 0 ≤ low) (hhn : high < (n : Int)) :
    ∀ (fuel : Nat) (arr : List α) (lt i gt : Int),
      arr.length = n →
      (gt + 1 - i).toNat ≤ fuel →
      low ≤ lt → lt < i → i ≤ gt + 1 → gt ≤ high →
      (∀ k : Int, low ≤ k → k < lt → le pv (getN arr k) = false) →
      (∀ k : Int, lt ≤ k → k < i →
        le pv (getN arr k) = true ∧ le (getN arr k) pv = true) →
      (∀ k : Int, gt < k → k ≤ high → le (getN arr k) pv = false) →
      PartOut le pv low high n arr (partitionLoop le (some pv) arr lt i gt) := by
  intro fuel
  induction fuel with
  | zero =>
    intro arr lt i gt harr hfuel h1 h2 h3 h4 hA hB hC
    rw [partitionLoop, if_neg (by omega)]
    unfold PartOut
    dsimp only
    refine ⟨harr, List.Perm.refl _, fun k _ => rfl, h1, by omega, by omega, hA, ?_, ?_,
      fun q hq k hk1 hk2 => hq k hk1 hk2⟩
    · intro k hk1 hk2
      exact hB k hk1 (by omega)
    · intro k hk1 hk2
      exact hC k (by omega) hk2
  | succ fuel ih =>
    intro arr lt i gt harr hfuel h1 h2 h3 h4 hA hB hC
    rw [partitionLoop]
    by_cases hguard : i ≤ gt
    · rw [if_pos hguard]
      have hi0 : 0 ≤ i := by omega
      have hiN : i < (arr.length : Int) := by omega
      rw [getI_in arr i hi0 hiN, oLt_some_some, oLt_some_some]
      by_cases hlt : le pv (getN arr i) = true
      · rw [if_neg (by rw [hlt]; simp)]
        by_cases hgt : le (getN arr i) pv = true
        · rw [if_neg (by rw [hgt]; simp)]
          exact ih arr lt (i + 1) gt harr (by omega) h1 (by omega) (by omega) h4 hA
            (fun k hk1 hk2 => by
              rcases Decidable.em (k = i) with rfl | hki
              · exact ⟨hlt, hgt⟩
              · exact hB k hk1 (by omega))
            hC
        · have hgt' : le (getN arr i) pv = false := by simpa using hgt
          rw [if_pos (by rw [hgt']; simp)]
          obtain ⟨hsperm, hsframe, hsq, hslen, hspoint⟩ :=
            swap_range_facts arr i gt low high n harr hl0 hhn
              (by omega) (by omega) (by omega) h4
          apply PartOut_compose _ hsperm hsframe hsq
          apply ih (swapI arr i gt) lt i (gt - 1) hslen (by omega) h1 h2
            (by omega) (by omega)
          · intro k hk1 hk2
            rw [hspoint k (by omega), if_neg (by omega), if_neg (by omega)]
            exact hA k hk1 hk2
          · intro k hk1 hk2
            rw [hspoint k (by omega), if_neg (by omega), if_neg (by omega)]
            exact hB k hk1 hk2
          · intro k hk1 hk2
            rcases Decidable.em (k = gt) with rfl | hkg
            · rw [hspoint k (by omega), if_pos rfl]
              exact hgt'
            · rw [hspoint k (by omega), if_neg hkg, if_neg (by omega)]
              exact hC k (by omega) hk2
      · have hlt' : le pv (getN arr i) = false := by simpa using hlt
        rw [if_pos (by rw [hlt']; simp)]
        obtain ⟨hsperm, hsframe, hsq, hslen, hspoint⟩ :=
          swap_range_facts arr lt i low high n harr hl0 hhn
            h1 (by omega) (by omega) (by omega)
        apply PartOut_compose _ hsperm hsframe hsq
        apply ih (swapI arr lt i) (lt + 1) (i + 1) gt hslen (by omega) (by omega)
          (by omega) (by omega) h4
        · intro k hk1 hk2
          rcases Decidable.em (k = lt) with rfl | hkl
          · rw [hspoint k (by omega), if_neg (by omega), if_pos rfl]
            exact hlt'
          · rw [hspoint k (by omega), if_neg (by omega), if_neg hkl]
            exact hA k hk1 (by omega)
        · intro k hk1 hk2
          rcases Decidable.em (k = i) with rfl | hki
          · rw [hspoint k (by omega), if_pos rfl]
            exact hB lt (by omega) (by omega)
          · rw [hspoint k (by omega), if_neg hki, if_neg (by omega)]
            exact hB k (by omega) (by omega)
        · intro k hk1 hk2
          rw [hspoint k (by omega), if_neg (by omega), if_neg (by omega)]
          exact hC k hk1 hk2
    · rw [if_neg hguard]
      unfold PartOut
      dsimp only
      refine ⟨harr, List.Perm.refl _, fun k _ => rfl, h1, by omega, by omega, hA, ?_, ?_,
        fun q hq k hk1 hk2 => hq k hk1 hk2⟩
      · intro k hk1 hk2
        exact hB k hk1 (by omega)
      · intro k hk1 hk2
        exact hC k (by omega) hk2

theorem quickSort3Way_base (le : α → α → Bool) (arr : List α) (low high : Int)
    (h : low ≥ high) : quickSort3Way le arr low high = arr := by
  rw [quickSort3Way, if_pos h]

theorem quickSort3Way_unfold (le : α → α → Bool) (arr : List α) (low high : Int)
    (h : ¬low ≥ high) :
    quickSort3Way le arr low high =
      quickSort3Way le
        (quickSort3Way le (partitionLoop le (getI arr low) arr low (low + 1) high).1 low
          ((partitionLoop le (getI arr low) arr low (low + 1) high).2.1 - 1))
        ((partitionLoop le (getI arr low) arr low (low + 1) high).2.2 + 1) high := by
  conv_lhs => rw [quickSort3Way]
  rw [if_neg h]

theorem quickSort3Way_spec {le : α → α → Bool} [Inhabited α]
    (htrans : LeTrans le) (htot : LeTotal le) :
    ∀ (fuel : Nat) (arr : List α) (low high : Int),
      (high - low).toNat ≤ fuel → 0 ≤ low → high < (arr.length : Int) →
      (quickSort3Way le arr low high).length = arr.length ∧
      List.Perm (quickSort3Way le arr low high) arr ∧
      (∀ k : Nat, ((k : Int) < low ∨ high < (k : Int)) →
        (quickSort3Way le arr low high).getD k default = arr.getD k default) ∧
      (∀ p r : Int, low ≤ p → p < r → r ≤ high →
        le (getN (quickSort3Way le arr low high) p)
          (getN (quickSort3Way le arr low high) r) = true) ∧
      (∀ (q : α → Bool), (∀ k : Int, low ≤ k → k ≤ high → q (getN arr k) = true) →
        ∀ k : Int, low ≤ k → k ≤ high →
          q (getN (quickSort3Way le arr low high) k) = true) := by
  intro fuel
  induction fuel with
  | zero =>
    intro arr low high hfuel hl0 hhn
    rw [quickSort3Way_base le arr low high (by omega)]
    exact ⟨rfl, List.Perm.refl _, fun k _ => rfl,
      fun p r hp hpr hr => by exfalso; omega,
      fun q hq k hk1 hk2 => hq k hk1 hk2⟩
  | succ fuel ih =>
    intro arr low high hfuel hl0 hhn
    by_cases hbase : low ≥ high
    · rw [quickSort3Way_base le arr low high hbase]
      exact ⟨rfl, List.Perm.refl _, fun k _ => rfl,
        fun p r hp hpr hr => by exfalso; omega,
        fun q hq k hk1 hk2 => hq k hk1 hk2⟩
    · have hlh : low < high := by omega
      have hlN : low < (arr.length : Int) := by omega
      rw [quickSort3Way_unfold le arr low high hbase, getI_in arr low hl0 hlN]
      set pv := getN arr low with hpv
      have hpart := partitionLoop_spec pv low high arr.length hl0 hhn
        (high - low).toNat arr low (low + 1) high rfl (by omega)
        (by omega) (by omega) (by omega) (by omega)
        (fun k hk1 hk2 => by exfalso; omega)
        (fun k hk1 hk2 => by
          have hkl : k = low := by omega
          rw [hkl, ← hpv]
          exact ⟨htot.refl pv, htot.refl pv⟩)
        (fun k hk1 hk2 => by exfalso; omega)
      set Pp := partitionLoop le (some pv) arr low (low + 1) high with hPp
      obtain ⟨plen, pperm, pframe, plow, pltgt, pgthigh, pA, pB, pC, pQ⟩ := hpart
      have hs1 := ih Pp.1 low (Pp.2.1 - 1) (by omega) hl0 (by rw [plen]; omega)
      obtain ⟨len1, perm1, frame1, sort1, q1⟩ := hs1
      set a2 := quickSort3Way le Pp.1 low (Pp.2.1 - 1) with ha2
      have hs2 := ih a2 (Pp.2.2 + 1) high (by omega) (by omega)
        (by rw [len1, plen]; omega)
      obtain ⟨len2, perm2, frame2, sort2, q2⟩ := hs2
      set fin := quickSort3Way le a2 (Pp.2.2 + 1) high with hfin
      have hlen : fin.length = arr.length := by rw [len2, len1, plen]
      -- pointwise transfers between the stages
      have htr1 : ∀ k : Int, Pp.2.1 ≤ k → getN a2 k = getN Pp.1 k := by
        intro k hk
        have h0k : 0 ≤ k := by omega
        exact frame1 k.toNat (Or.inr (by omega))
      have htr2 : ∀ k : Int, 0 ≤ k → k ≤ Pp.2.2 → getN fin k = getN a2 k := by
        intro k h0k hk
        exact frame2 k.toNat (Or.inl (by omega))
      have hAfin : ∀ k : Int, low ≤ k → k < Pp.2.1 → le pv (getN fin k) = false := by
        intro k hk1 hk2
        rw [htr2 k (by omega) (by omega)]
        have hq1 := q1 (fun x => !(le pv x))
          (fun k' hk1' hk2' => by
            have h' := pA k' hk1' (by omega)
            simp [h'])
          k hk1 (by omega)
        simpa using hq1
      have hBfin : ∀ k : Int, Pp.2.1 ≤ k → k ≤ Pp.2.2 →
          le pv (getN fin k) = true ∧ le (getN fin k) pv = true := by
        intro k hk1 hk2
        rw [htr2 k (by omega) hk2, htr1 k hk1]
        exact pB k hk1 hk2
      have hCfin : ∀ k : Int, Pp.2.2 < k → k ≤ high → le (getN fin k) pv = false := by
        intro k hk1 hk2
        have hq2 := q2 (fun x => !(le x pv))
          (fun k' hk1' hk2' => by
            have h' := pC k' (by omega) hk2'
            simp [htr1 k' (by omega), h'])
          k hk1 hk2
        simpa using hq2
      have hSlow : ∀ p r : Int, low ≤ p → p < r → r ≤ Pp.2.1 - 1 →
          le (getN fin p) (getN fin r) = true := by
        intro p r hp hpr hr
        rw [htr2 p (by omega) (by omega), htr2 r (by omega) (by omega)]
        exact sort1 p r hp hpr hr
      refine ⟨hlen, (perm2.trans perm1).trans pperm, ?_, ?_, ?_⟩
      · intro k hk
        have hkA : (k : Int) < Pp.2.2 + 1 ∨ high < (k : Int) := by
          rcases hk with hk | hk
          · exact Or.inl (by omega)
          · exact Or.inr hk
        have hkB : (k : Int) < low ∨ Pp.2.1 - 1 < (k : Int) := by
          rcases hk with hk | hk
          · exact Or.inl hk
          · exact Or.inr (by omega)
        rw [frame2 k hkA, frame1 k hkB, pframe k hk]
      · intro p r hp hpr hr
        have hlep : p < Pp.2.1 ∨ (Pp.2.1 ≤ p ∧ p ≤ Pp.2.2) ∨ Pp.2.2 < p := by omega
        have hler : r < Pp.2.1 ∨ (Pp.2.1 ≤ r ∧ r ≤ Pp.2.2) ∨ Pp.2.2 < r := by omega
        have hApv : ∀ k : Int, low ≤ k → k < Pp.2.1 → le (getN fin k) pv = true := by
          intro k hk1 hk2
          rcases htot (getN fin k) pv with h' | h'
          · exact h'
          · rw [hAfin k hk1 hk2] at h'
            exact absurd h' (by simp)
        have hCpv : ∀ k : Int, Pp.2.2 < k → k ≤ high → le pv (getN fin k) = true := by
          intro k hk1 hk2
          rcases htot pv (getN fin k) with h' | h'
          · exact h'
          · rw [hCfin k hk1 hk2] at h'
            exact absurd h' (by simp)
        rcases hlep with hp' | hp' | hp'
        · rcases hler with hr' | hr' | hr'
          · exact hSlow p r hp hpr (by omega)
          · exact htrans _ _ _ (hApv p hp hp') (hBfin r hr'.1 hr'.2).1
          · exact htrans _ _ _ (hApv p hp hp') (hCpv r hr' hr)
        · rcases hler with hr' | hr' | hr'
          · omega
          · exact htrans _ _ _ (hBfin p hp'.1 hp'.2).2 (hBfin r hr'.1 hr'.2).1
          · exact htrans _ _ _ (hBfin p hp'.1 hp'.2).2 (hCpv r hr' hr)
        · rcases hler with hr' | hr' | hr'
          · omega
          · omega
          · exact sort2 p r (by omega) hpr hr
      · intro q hq k hk1 hk2
        have hqP := pQ q hq
        have hqa2 : ∀ k : Int, low ≤ k → k ≤ high → q (getN a2 k) = true := by
          intro k' hk1' hk2'
          by_cases hk' : k' ≤ Pp.2.1 - 1
          · exact q1 q (fun m hm1 hm2 => hqP m hm1 (by omega)) k' hk1' hk'
          · rw [htr1 k' (by omega)]
            exact hqP k' hk1' hk2'
        by_cases hk' : Pp.2.2 + 1 ≤ k
        · exact q2 q (fun m hm1 hm2 => hqa2 m (by omega) hm2) k hk' hk2
        · rw [htr2 k (by omega) (by omega)]
          exact hqa2 k hk1 hk2

theorem partitionLoop_allEq {le : α → α → Bool} [Inhabited α] (htot : LeTotal le) (c : α) :
    ∀ (fuel : Nat) (arr : List α) (lt i gt : Int),
      (gt + 1 - i).toNat ≤ fuel → 0 ≤ i → gt < (arr.length : Int) →
      (∀ x ∈ arr, x = c) →
      partitionLoop le (some c) arr lt i gt = (arr, lt, gt) := by
  intro fuel
  induction fuel with
  | zero =>
    intro arr lt i gt hf h0 hg hall
    rw [partitionLoop, if_neg (by omega)]
  | succ fuel ih =>
    intro arr lt i gt hf h0 hg hall
    rw [partitionLoop]
    by_cases hguard : i ≤ gt
    · rw [if_pos hguard]
      have hiN : i < (arr.length : Int) := by omega
      rw [getI_in arr i h0 hiN, oLt_some_some, oLt_some_some]
      have hx : getN arr i = c := by
        apply hall
        rw [getN]
        have hlt : i.toNat < arr.length := by omega
        rw [List.getD_eq_getElem?_getD, List.getElem?_eq_getElem hlt]
        simpa using List.getElem_mem hlt
      rw [hx]
      have hcc : le c c = true := htot.refl c
      rw [if_neg (by rw [hcc]; simp), if_neg (by rw [hcc]; simp)]
      exact ih arr lt (i + 1) gt (by omega) (by omega) hg hall
    · rw [if_neg hguard]

theorem countPartitions_base (le : α → α → Bool) (arr : List α) (low high : Int)
    (h : low ≥ high) : countPartitions le arr low high = 0 := by
  rw [countPartitions, if_pos h]

theorem countPartitions_unfold (le : α → α → Bool) (arr : List α) (low high : Int)
    (h : ¬low ≥ high) :
    countPartitions le arr low high =
      1 + countPartitions le (partitionLoop le (getI arr low) arr low (low + 1) high).1 low
          ((partitionLoop le (getI arr low) arr low (low + 1) high).2.1 - 1) +
        countPartitions le
          (quickSort3Way le (partitionLoop le (getI arr low) arr low (low + 1) high).1 low
            ((partitionLoop le (getI arr low) arr low (low + 1) high).2.1 - 1))
          ((partitionLoop le (getI arr low) arr low (low + 1) high).2.2 + 1) high := by
  conv_lhs => rw [countPartitions]
  rw [if_neg h]

/-! ### Fuel-indexed variants

Each loop or recursion is mirrored by a structurally recursive function
that consumes one unit of fuel per iteration or call and returns `none`
when the fuel runs out.  The equivalence theorems below show that enough
fuel always exists, i.e. every loop and recursion reaches its exit or
base case. -/

/-- Fuel-indexed outer loop of `insertionSort`. -/
def insertionSortLoopFuel (le : α → α → Bool) [Inhabited α] :
    Nat → List α → Nat → Option (List α)
  | 0, _, _ => none
  | fuel + 1, arr, i =>
    if i < arr.length then
      insertionSortLoopFuel le fuel (insertLoop le (arr.getD i default) arr i) (i + 1)
    else some arr

theorem insertionSortLoopFuel_eq (le : α → α → Bool) [Inhabited α] :
    ∀ (fuel : Nat) (arr : List α) (i : Nat), arr.length - i < fuel →
      insertionSortLoopFuel le fuel arr i = some (insertionSortLoop le arr i) := by
  intro fuel
  induction fuel with
  | zero =>
    intro arr i h
    exact absurd h (by omega)
  | succ fuel ih =>
    intro arr i h
    rw [insertionSortLoopFuel, insertionSortLoop]
    by_cases hi : i < arr.length
    · rw [if_pos hi, dif_pos hi]
      exact ih _ _ (by rw [insertLoop_length]; omega)
    · rw [if_neg hi, dif_neg hi]

/-- Fuel-indexed outer loop of `selectionSort`. -/
def selectionSortLoopFuel (le : α → α → Bool) [Inhabited α] :
    Nat → List α → Nat → Option (List α)
  | 0, _, _ => none
  | fuel + 1, arr, i =>
    if i + 1 < arr.length then
      selectionSortLoopFuel le fuel (swapN arr i (minIdxLoop le arr i (i + 1))) (i + 1)
    else some arr

theorem selectionSortLoopFuel_eq (le : α → α → Bool) [Inhabited α] :
    ∀ (fuel : Nat) (arr : List α) (i : Nat), arr.length - i < fuel →
      selectionSortLoopFuel le fuel arr i = some (selectionSortLoop le arr i) := by
  intro fuel
  induction fuel with
  | zero =>
    intro arr i h
    exact absurd h (by omega)
  | succ fuel ih =>
    intro arr i h
    rw [selectionSortLoopFuel, selectionSortLoop]
    by_cases hi : i + 1 < arr.length
    · rw [if_pos hi, dif_pos hi]
      exact ih _ _ (by rw [swapN_length]; omega)
    · rw [if_neg hi, dif_neg hi]

/-- Fuel-indexed outer loop of `bubbleSort`. -/
def bubbleSortLoopFuel (le : α → α → Bool) [Inhabited α] :
    Nat → List α → Nat → Nat → Option (List α)
  | 0, _, _, _ => none
  | fuel + 1, arr, n, i =>
    if i + 1 < n then
      let p := bubblePass le arr false 0 (n - i - 1)
      if p.2 then bubbleSortLoopFuel le fuel p.1 n (i + 1) else some p.1
    else some arr

theorem bubbleSortLoopFuel_eq (le : α → α → Bool) [Inhabited α] :
    ∀ (fuel : Nat) (arr : List α) (n i : Nat), n - i < fuel →
      bubbleSortLoopFuel le fuel arr n i = some (bubbleSortLoop le arr n i) := by
  intro fuel
  induction fuel with
  | zero =>
    intro arr n i h
    exact absurd h (by omega)
  | succ fuel ih =>
    intro arr n i h
    rw [bubbleSortLoopFuel, bubbleSortLoop]
    by_cases hi : i + 1 < n
    · rw [if_pos hi, if_pos hi]
      by_cases hsw : (bubblePass le arr false 0 (n - i - 1)).2 = true
      · rw [if_pos hsw, if_pos hsw]
        exact ih _ _ _ (by omega)
      · rw [if_neg hsw, if_neg hsw]
    · rw [if_neg hi, if_neg hi]

/-- Fuel-indexed `mergeSort`. -/
def mergeSortFuel (le : α → α → Bool) : Nat → List α → Option (List α)
  | 0, _ => none
  | fuel + 1, arr =>
    if arr.length ≤ 1 then some arr
    else
      match mergeSortFuel le fuel (arr.take (arr.length / 2)),
          mergeSortFuel le fuel (arr.drop (arr.length / 2)) with
      | some l, some r => some (merge le l r)
      | _, _ => none

theorem mergeSortFuel_eq (le : α → α → Bool) :
    ∀ (fuel : Nat) (arr : List α), arr.length < fuel →
      mergeSortFuel le fuel arr = some (mergeSort le arr) := by
  intro fuel
  induction fuel with
  | zero =>
    intro arr h
    exact absurd h (by omega)
  | succ fuel ih =>
    intro arr h
    rw [mergeSortFuel]
    by_cases hlen : arr.length ≤ 1
    · rw [if_pos hlen, mergeSort_small le arr hlen]
    · rw [if_neg hlen]
      rw [ih (arr.take (arr.length / 2)) (by simp only [List.length_take]; omega),
        ih (arr.drop (arr.length / 2)) (by simp only [List.length_drop]; omega)]
      dsimp only
      rw [merge_eq, mergeSort_split le arr hlen]

/-- Fuel-indexed `quickSort3Way`. -/
def quickSort3WayFuel (le : α → α → Bool) :
    Nat → List α → Int → Int → Option (List α)
  | 0, _, _, _ => none
  | fuel + 1, arr, low, high =>
    if low ≥ high then some arr
    else
      let p := partitionLoop le (getI arr low) arr low (low + 1) high
      match quickSort3WayFuel le fuel p.1 low (p.2.1 - 1) with
      | some a1 => quickSort3WayFuel le fuel a1 (p.2.2 + 1) high
      | none => none

theorem quickSort3WayFuel_eq (le : α → α → Bool) :
    ∀ (fuel : Nat) (arr : List α) (low high : Int), (high - low).toNat < fuel →
      quickSort3WayFuel le fuel arr low high = some (quickSort3Way le arr low high) := by
  intro fuel
  induction fuel with
  | zero =>
    intro arr low high h
    exact absurd h (by omega)
  | succ fuel ih =>
    intro arr low high h
    rw [quickSort3WayFuel]
    by_cases hbase : low ≥ high
    · rw [if_pos hbase, quickSort3Way_base le arr low high hbase]
    · rw [if_neg hbase]
      have hb := partitionLoop_bounds le (getI arr low) arr low (low + 1) high
        (by omega) (by omega)
      have h1 := ih (partitionLoop le (getI arr low) arr low (low + 1) high).1 low
        ((partitionLoop le (getI arr low) arr low (low + 1) high).2.1 - 1) (by omega)
      have h2 := ih
        (quickSort3Way le (partitionLoop le (getI arr low) arr low (low + 1) high).1 low
          ((partitionLoop le (getI arr low) arr low (low + 1) high).2.1 - 1))
        ((partitionLoop le (getI arr low) arr low (low + 1) high).2.2 + 1) high (by omega)
      simp only [h1, h2]
      rw [quickSort3Way_unfold le arr low high hbase]

/-! ### Bounds-checked variant of `quickSort3Way` (spec model) -/

/-- Modelled from the spec: the error-handling section requires
`quickSort3Way` called with `low`/`high` outside `[0, length-1]` to "fail
fast (reject with a bounds error) rather than read/write out of range".
Rejection is modelled as `none`.  The source implementation of
`quickSort3Way` contains no such check. -/
def quickSort3WayChecked (le : α → α → Bool) (arr : List α) (low high : Int) :
    Option (List α) :=
  if 0 ≤ low ∧ low ≤ (arr.length : Int) - 1 ∧ 0 ≤ high ∧ high ≤ (arr.length : Int) - 1 then
    some (quickSort3Way le arr low high)
  else none

/-! ### Heap model of `mergeSort`

`mergeSort` is the one routine documented as returning a new array.  To
state that it never mutates its argument, arrays are modelled as
references into a store (a list of arrays): `arr.slice(...)` allocates a
fresh array at the end of the store, and the recursive calls receive the
fresh references, so the only way the caller's array could change is by
an assignment through `r` — and the function contains none.  The fuel
argument mirrors the recursion (the recursion depth cannot be justified
before the frame property below is proven, so the function is
fuel-indexed and the spec shows the fuel suffices). -/

/-- Read the array held by reference `r` in store `s`. -/
def readArr (s : List (List Int)) (r : Nat) : List Int :=
  s.getD r []

theorem readArr_append_self :
    ∀ (s : List (List Int)) (x : List Int), readArr (s ++ [x]) s.length = x := by
  intro s x
  induction s with
  | nil => rfl
  | cons a s ih => simpa [readArr] using ih

theorem readArr_append_lt :
    ∀ (s : List (List Int)) (x : List Int) (t : Nat), t < s.length →
      readArr (s ++ [x]) t = readArr s t := by
  intro s
  induction s with
  | nil =>
    intro x t ht
    exact absurd ht (by simp)
  | cons a s ih =>
    intro x t ht
    cases t with
    | zero => rfl
    | succ t => simpa [readArr] using ih x t (by simpa using ht)

/-- Store-passing model of `mergeSort(arr)` for an array reference `r`:
`arr.slice(0, mid)` and `arr.slice(mid)` allocate copies (the second one
reads `arr` again after the first recursive call, as in the source),
and the base case returns the argument reference itself. -/
def mergeSortH : Nat → List (List Int) → Nat → Option (List (List Int) × Nat)
  | 0, _, _ => none
  | fuel + 1, s, r =>
    if (readArr s r).length ≤ 1 then some (s, r)
    else
      let a := readArr s r
      let mid := a.length / 2
      match mergeSortH fuel (s ++ [a.take mid]) s.length with
      | none => none
      | some (s₂, rl') =>
        match mergeSortH fuel (s₂ ++ [(readArr s₂ r).drop mid]) s₂.length with
        | none => none
        | some (s₄, rr') =>
          some (s₄ ++ [merge leInt (readArr s₄ rl') (readArr s₄ rr')], s₄.length)

theorem mergeSortH_spec :
    ∀ (fuel : Nat) (s : List (List Int)) (r : Nat),
      (readArr s r).length < fuel → r < s.length →
      ∃ s' r', mergeSortH fuel s r = some (s', r') ∧
        s.length ≤ s'.length ∧ r' < s'.length ∧
        (∀ t, t < s.length → readArr s' t = readArr s t) ∧
        readArr s' r' = mergeSort leInt (readArr s r) := by
  intro fuel
  induction fuel with
  | zero =>
    intro s r h _
    exact absurd h (by omega)
  | succ fuel ih =>
    intro s r hfuel hr
    rw [mergeSortH]
    by_cases hsmall : (readArr s r).length ≤ 1
    · rw [if_pos hsmall]
      exact ⟨s, r, rfl, Nat.le_refl _, hr, fun t _ => rfl,
        (mergeSort_small leInt _ hsmall).symm⟩
    · rw [if_neg hsmall]
      have htk : readArr (s ++ [(readArr s r).take ((readArr s r).length / 2)]) s.length =
          (readArr s r).take ((readArr s r).length / 2) := readArr_append_self s _
      obtain ⟨s₂, rl', he1, hlen1, hrl1, hpres1, hres1⟩ :=
        ih (s ++ [(readArr s r).take ((readArr s r).length / 2)]) s.length
          (by rw [htk]; simp only [List.length_take]; omega)
          (by simp)
      simp only [he1]
      have hs2r : readArr s₂ r = readArr s r := by
        rw [hpres1 r (by simp; omega), readArr_append_lt s _ r hr]
      rw [hs2r]
      have hdr : readArr (s₂ ++ [(readArr s r).drop ((readArr s r).length / 2)]) s₂.length =
          (readArr s r).drop ((readArr s r).length / 2) := readArr_append_self s₂ _
      obtain ⟨s₄, rr', he2, hlen2, hrr1, hpres2, hres2⟩ :=
        ih (s₂ ++ [(readArr s r).drop ((readArr s r).length / 2)]) s₂.length
          (by rw [hdr]; simp only [List.length_drop]; omega)
          (by simp)
      simp only [he2]
      refine ⟨s₄ ++ [merge leInt (readArr s₄ rl') (readArr s₄ rr')], s₄.length,
        rfl, ?_, by simp, ?_, ?_⟩
      · simp only [List.length_append]
        have hl2 : s₂.length + 1 ≤ s₄.length := by simpa using hlen2
        have hl1 : s.length + 1 ≤ s₂.length := by simpa using hlen1
        omega
      · intro t ht
        have ht2 : t < s₂.length := by
          have hl1 : s.length + 1 ≤ s₂.length := by simpa using hlen1
          omega
        have ht4 : t < s₄.length := by
          have hl2 : s₂.length + 1 ≤ s₄.length := by simpa using hlen2
          omega
        rw [readArr_append_lt s₄ _ t ht4,
          hpres2 t (by simp; omega),
          readArr_append_lt s₂ _ t ht2,
          hpres1 t (by simp; omega),
          readArr_append_lt s _ t ht]
      · rw [readArr_append_self]
        have hl4 : readArr s₄ rl' = mergeSort leInt ((readArr s r).take ((readArr s r).length / 2)) := by
          rw [hpres2 rl' (by simp; omega), readArr_append_lt s₂ _ rl' hrl1, ← htk]
          exact hres1
        have hr4 : readArr s₄ rr' = mergeSort leInt ((readArr s r).drop ((readArr s r).length / 2)) := by
          rw [← hdr]
          exact hres2
        rw [hl4, hr4, merge_eq, ← mergeSort_split leInt (readArr s r) hsmall]

/-! ### The concrete orders of the claims -/

theorem leInt_trans : LeTrans leInt := by
  intro a b c h1 h2
  simp only [leInt, decide_eq_true_eq] at h1 h2 ⊢
  omega

theorem leInt_total : LeTotal leInt := by
  intro a b
  simp only [leInt, decide_eq_true_eq]
  omega

theorem leV_trans : LeTrans leV := by
  intro a b c h1 h2
  simp only [leV, decide_eq_true_eq] at h1 h2 ⊢
  omega

theorem leV_total : LeTotal leV := by
  intro a b
  simp only [leV, decide_eq_true_eq]
  omega

theorem leV_eqval {v : Int} :
    ∀ a b : Int × Nat, (a.1 == v) = true → (b.1 == v) = true → leV a b = true := by
  intro a b ha hb
  simp only [beq_iff_eq] at ha hb
  simp only [leV, decide_eq_true_eq, ha, hb]
  omega

theorem PW_leInt_sorted {l : List Int} (h : PW leInt l) : l.Sorted (· ≤ ·) := by
  rw [PW] at h
  exact h.imp (fun hab => by simpa [leInt] using hab)

theorem PW_leInt_adjacent {l : List Int} (h : PW leInt l) :
    ∀ i : Nat, i + 1 < l.length → l.getD i 0 ≤ l.getD (i + 1) 0 := by
  intro i hi
  rw [PW, List.pairwise_iff_getElem] at h
  have h' := h i (i + 1) (by omega) hi (by omega)
  rw [List.getD_eq_getElem?_getD, List.getD_eq_getElem?_getD,
    List.getElem?_eq_getElem (by omega : i < l.length),
    List.getElem?_eq_getElem hi]
  simpa [leInt] using h'

/-! ### Derived top-level facts for `quickSort3Way` at the full range -/

theorem quickFull (arr : List Int) :
    (quickSort3Way leInt arr 0 ((arr.length : Int) - 1)).length = arr.length ∧
    List.Perm (quickSort3Way leInt arr 0 ((arr.length : Int) - 1)) arr ∧
    PW leInt (quickSort3Way leInt arr 0 ((arr.length : Int) - 1)) := by
  obtain ⟨hL, hP, hF, hS, hQ⟩ := quickSort3Way_spec leInt_trans leInt_total
    arr.length arr 0 ((arr.length : Int) - 1) (by omega) (by omega) (by omega)
  refine ⟨hL, hP, ?_⟩
  apply PW_of_pointwise
  intro p r hpr hrlen
  rw [hL] at hrlen
  have h' := hS (p : Int) (r : Int) (by omega) (by omega) (by omega)
  rw [getN, getN] at h'
  simpa using h'

/-! ### The claims -/

/-- Claim C1: for every finite input sequence of integers, each of the
five operations (`insertionSort`, `selectionSort`, `bubbleSort`,
`mergeSort`, and `quickSort3Way` with `low = 0`, `high = length - 1`)
produces an output — the mutated array, or `mergeSort`'s returned
array — that is sorted non-descending: `output[i] <= output[i+1]` for
every valid index `i`. -/
theorem C1_outputs_sorted (arr : List Int) :
    (∀ i : Nat, i + 1 < (insertionSort leInt arr).length →
      (insertionSort leInt arr).getD i 0 ≤ (insertionSort leInt arr).getD (i + 1) 0) ∧
    (∀ i : Nat, i + 1 < (selectionSort leInt arr).length →
      (selectionSort leInt arr).getD i 0 ≤ (selectionSort leInt arr).getD (i + 1) 0) ∧
    (∀ i : Nat, i + 1 < (bubbleSort leInt arr).length →
      (bubbleSort leInt arr).getD i 0 ≤ (bubbleSort leInt arr).getD (i + 1) 0) ∧
    (∀ i : Nat, i + 1 < (mergeSort leInt arr).length →
      (mergeSort leInt arr).getD i 0 ≤ (mergeSort leInt arr).getD (i + 1) 0) ∧
    (∀ i : Nat, i + 1 < (quickSort3Way leInt arr 0 ((arr.length : Int) - 1)).length →
      (quickSort3Way leInt arr 0 ((arr.length : Int) - 1)).getD i 0 ≤
        (quickSort3Way leInt arr 0 ((arr.length : Int) - 1)).getD (i + 1) 0) :=
  ⟨PW_leInt_adjacent (insertionSort_sorted leInt_trans leInt_total arr),
    PW_leInt_adjacent (selectionSort_sorted leInt_trans leInt_total arr),
    PW_leInt_adjacent (bubbleSort_sorted leInt_trans leInt_total arr),
    PW_leInt_adjacent (mergeSort_sorted leInt_trans leInt_total arr),
    PW_leInt_adjacent (quickFull arr).2.2⟩

/-- Claim C2: each of the five operations preserves the multiset of
elements — the output is a permutation of the input (duplicates
preserved in count) and its length equals the input length. -/
theorem C2_outputs_permutation (arr : List Int) :
    (List.Perm (insertionSort leInt arr) arr ∧
      (insertionSort leInt arr).length = arr.length) ∧
    (List.Perm (selectionSort leInt arr) arr ∧
      (selectionSort leInt arr).length = arr.length) ∧
    (List.Perm (bubbleSort leInt arr) arr ∧
      (bubbleSort leInt arr).length = arr.length) ∧
    (List.Perm (mergeSort leInt arr) arr ∧
      (mergeSort leInt arr).length = arr.length) ∧
    (List.Perm (quickSort3Way leInt arr 0 ((arr.length : Int) - 1)) arr ∧
      (quickSort3Way leInt arr 0 ((arr.length : Int) - 1)).length = arr.length) :=
  ⟨⟨insertionSort_perm leInt arr, (insertionSort_perm leInt arr).length_eq⟩,
    ⟨selectionSort_perm leInt_trans leInt_total arr,
      (selectionSort_perm leInt_trans leInt_total arr).length_eq⟩,
    ⟨bubbleSort_perm leInt arr, (bubbleSort_perm leInt arr).length_eq⟩,
    ⟨mergeSort_perm leInt arr, (mergeSort_perm leInt arr).length_eq⟩,
    ⟨(quickFull arr).2.1, (quickFull arr).1⟩⟩

/-- Claim C3: `insertionSort`, `bubbleSort` and `mergeSort` are stable.
Elements are value-index pairs compared by value only (`leV`), as the
spec prescribes; stability is stated in its standard exact form: for
every value `v`, the subsequence of pairs carrying value `v` is exactly
the same (same entries, same relative order) in the output as in the
input. -/
theorem C3_stability (l : List (Int × Nat)) (v : Int) :
    (insertionSort leV l).filter (fun p => p.1 == v) = l.filter (fun p => p.1 == v) ∧
    (bubbleSort leV l).filter (fun p => p.1 == v) = l.filter (fun p => p.1 == v) ∧
    (mergeSort leV l).filter (fun p => p.1 == v) = l.filter (fun p => p.1 == v) :=
  ⟨insertionSort_filter (fun p => p.1 == v) leV_eqval l,
    bubbleSort_filter (fun p => p.1 == v) leV_eqval l,
    mergeSort_filter leV_trans leV_total (fun p => p.1 == v) leV_eqval l⟩

/-- Claim C4: every operation terminates on every finite well-formed
input.  Each loop and recursion is mirrored by a fuel-indexed variant
that returns `none` when the fuel runs out; with fuel exceeding the
input length (and, for `quickSort3Way`, the range width) no loop or
recursion ever runs out — in particular the recursions of `mergeSort`
and `quickSort3Way` always reach their base cases. -/
theorem C4_termination (arr : List Int) (low high : Int) (fuel : Nat)
    (hfa : arr.length < fuel) (hfq : (high - low).toNat < fuel)
    (hlow : 0 ≤ low) (hhigh : high < (arr.length : Int)) :
    insertionSortLoopFuel leInt fuel arr 1 = some (insertionSort leInt arr) ∧
    selectionSortLoopFuel leInt fuel arr 0 = some (selectionSort leInt arr) ∧
    bubbleSortLoopFuel leInt fuel arr arr.length 0 = some (bubbleSort leInt arr) ∧
    mergeSortFuel leInt fuel arr = some (mergeSort leInt arr) ∧
    quickSort3WayFuel leInt fuel arr low high = some (quickSort3Way leInt arr low high) := by
  refine ⟨?_, ?_, ?_, ?_, ?_⟩
  · rw [insertionSort]
    exact insertionSortLoopFuel_eq leInt fuel arr 1 (by omega)
  · rw [selectionSort]
    exact selectionSortLoopFuel_eq leInt fuel arr 0 (by omega)
  · rw [bubbleSort]
    exact bubbleSortLoopFuel_eq leInt fuel arr arr.length 0 (by omega)
  · exact mergeSortFuel_eq leInt fuel arr hfa
  · exact quickSort3WayFuel_eq leInt fuel arr low high hfq

/-- Witness for C4 at a concrete input. -/
theorem C4_termination_witness :
    ([5, 3, 8, 1, 9, 2] : List Int).length < 7 ∧
      ((5 : Int) - 0).toNat < 7 ∧ (0 : Int) ≤ 0 ∧
      (5 : Int) < (([5, 3, 8, 1, 9, 2] : List Int).length : Int) ∧
      (insertionSortLoopFuel leInt 7 [5, 3, 8, 1, 9, 2] 1 =
        some (insertionSort leInt [5, 3, 8, 1, 9, 2]) ∧
      selectionSortLoopFuel leInt 7 [5, 3, 8, 1, 9, 2] 0 =
        some (selectionSort leInt [5, 3, 8, 1, 9, 2]) ∧
      bubbleSortLoopFuel leInt 7 [5, 3, 8, 1, 9, 2]
        ([5, 3, 8, 1, 9, 2] : List Int).length 0 =
        some (bubbleSort leInt [5, 3, 8, 1, 9, 2]) ∧
      mergeSortFuel leInt 7 [5, 3, 8, 1, 9, 2] =
        some (mergeSort leInt [5, 3, 8, 1, 9, 2]) ∧
      quickSort3WayFuel leInt 7 [5, 3, 8, 1, 9, 2] 0 5 =
        some (quickSort3Way leInt [5, 3, 8, 1, 9, 2] 0 5)) :=
  ⟨by decide, by decide, by decide, by decide,
    C4_termination [5, 3, 8, 1, 9, 2] 0 5 7 (by decide) (by decide) (by decide) (by decide)⟩

unseal partitionLoop quickSort3Way in
/-- Counterexample to claim C5: called with `high = 5` on an array of
length 2 — bounds outside `[0, length-1]` — `quickSort3Way` is not
rejected with a bounds error (as the spec-modelled checked variant
would do): the unchecked source code runs the partition loop, where the
out-of-range reads behave as JS `undefined` (neither `< pivot` nor
`> pivot`), and returns normally. -/
theorem C5_counterexample :
    quickSort3WayChecked leInt ([2, 1] : List Int) 0 5 = none ∧
    quickSort3Way leInt ([2, 1] : List Int) 0 5 = [1, 2] :=
  ⟨rfl, rfl⟩

unseal partitionLoop quickSort3Way in
/-- Claim C5 as amended: `quickSort3Way` performs no bounds validation.
Called with `low`/`high` outside `[0, length-1]` it does not fail fast:
it executes normally (out-of-range reads compare as JS `undefined`,
which is neither `<` nor `>` any number) and returns without error —
here with `high` past the end, and with a negative `low` (whose pivot
read is `undefined`, so the whole scan falls into the `else` branch and
the array is returned unchanged). -/
theorem C5_amended_no_bounds_check :
    quickSort3Way leInt ([2, 1] : List Int) 0 5 = [1, 2] ∧
    quickSort3Way leInt ([3, 1, 2] : List Int) (-1) 3 = [3, 1, 2] :=
  ⟨rfl, rfl⟩

/-- Claim C6: for `low < high` (in range), with `pivot = seq[low]`, when
the partition loop exits, `[low, lt)` holds values `< pivot`, `[lt, gt]`
holds values `== pivot`, `(gt, high]` holds values `> pivot` (with
`low ≤ lt ≤ gt ≤ high`), and the recursion continues exactly on
`[low, lt-1]` and `[gt+1, high]`. -/
theorem C6_partition_invariant (arr : List Int) (low high : Int)
    (h0 : 0 ≤ low) (hlh : low < high) (hhn : high < (arr.length : Int)) :
    (low ≤ (partitionLoop leInt (getI arr low) arr low (low + 1) high).2.1 ∧
      (partitionLoop leInt (getI arr low) arr low (low + 1) high).2.1 ≤
        (partitionLoop leInt (getI arr low) arr low (low + 1) high).2.2 ∧
      (partitionLoop leInt (getI arr low) arr low (low + 1) high).2.2 ≤ high) ∧
    (∀ k : Int, low ≤ k →
      k < (partitionLoop leInt (getI arr low) arr low (low + 1) high).2.1 →
      getN (partitionLoop leInt (getI arr low) arr low (low + 1) high).1 k <
        getN arr low) ∧
    (∀ k : Int, (partitionLoop leInt (getI arr low) arr low (low + 1) high).2.1 ≤ k →
      k ≤ (partitionLoop leInt (getI arr low) arr low (low + 1) high).2.2 →
      getN (partitionLoop leInt (getI arr low) arr low (low + 1) high).1 k =
        getN arr low) ∧
    (∀ k : Int, (partitionLoop leInt (getI arr low) arr low (low + 1) high).2.2 < k →
      k ≤ high →
      getN arr low <
        getN (partitionLoop leInt (getI arr low) arr low (low + 1) high).1 k) ∧
    quickSort3Way leInt arr low high =
      quickSort3Way leInt
        (quickSort3Way leInt (partitionLoop leInt (getI arr low) arr low (low + 1) high).1
          low ((partitionLoop leInt (getI arr low) arr low (low + 1) high).2.1 - 1))
        ((partitionLoop leInt (getI arr low) arr low (low + 1) high).2.2 + 1) high := by
  have hlN : low < (arr.length : Int) := by omega
  rw [getI_in arr low h0 hlN]
  obtain ⟨plen, pperm, pframe, plow, pltgt, pgthigh, pA, pB, pC, pQ⟩ :=
    partitionLoop_spec (getN arr low) low high arr.length h0 hhn
      (high - low).toNat arr low (low + 1) high rfl (by omega)
      (by omega) (by omega) (by omega) (by omega)
      (fun k hk1 hk2 => by exfalso; omega)
      (fun k hk1 hk2 => by
        have hkl : k = low := by omega
        rw [hkl]
        exact ⟨leInt_total.refl _, leInt_total.refl _⟩)
      (fun k hk1 hk2 => by exfalso; omega)
  refine ⟨⟨plow, pltgt, pgthigh⟩, ?_, ?_, ?_, ?_⟩
  · intro k hk1 hk2
    have h' := pA k hk1 hk2
    simp only [leInt, decide_eq_false_iff_not] at h'
    omega
  · intro k hk1 hk2
    have h' := pB k hk1 hk2
    simp only [leInt, decide_eq_true_eq] at h'
    omega
  · intro k hk1 hk2
    have h' := pC k hk1 hk2
    simp only [leInt, decide_eq_false_iff_not] at h'
    omega
  · rw [quickSort3Way_unfold leInt arr low high (by omega),
      getI_in arr low h0 hlN]

/-- Witness for C6 at a concrete input. -/
theorem C6_partition_invariant_witness :
    (0 : Int) ≤ 0 ∧ (0 : Int) < 4 ∧ (4 : Int) < (([4, 2, 7, 2, 9] : List Int).length : Int) ∧
      ((0 ≤ (partitionLoop leInt (getI ([4, 2, 7, 2, 9] : List Int) 0)
          [4, 2, 7, 2, 9] 0 1 4).2.1 ∧
        (partitionLoop leInt (getI ([4, 2, 7, 2, 9] : List Int) 0)
          [4, 2, 7, 2, 9] 0 1 4).2.1 ≤
          (partitionLoop leInt (getI ([4, 2, 7, 2, 9] : List Int) 0)
            [4, 2, 7, 2, 9] 0 1 4).2.2 ∧
        (partitionLoop leInt (getI ([4, 2, 7, 2, 9] : List Int) 0)
          [4, 2, 7, 2, 9] 0 1 4).2.2 ≤ 4) ∧
      (∀ k : Int, 0 ≤ k →
        k < (partitionLoop leInt (getI ([4, 2, 7, 2, 9] : List Int) 0)
          [4, 2, 7, 2, 9] 0 1 4).2.1 →
        getN (partitionLoop leInt (getI ([4, 2, 7, 2, 9] : List Int) 0)
          [4, 2, 7, 2, 9] 0 1 4).1 k < getN ([4, 2, 7, 2, 9] : List Int) 0) ∧
      (∀ k : Int, (partitionLoop leInt (getI ([4, 2, 7, 2, 9] : List Int) 0)
          [4, 2, 7, 2, 9] 0 1 4).2.1 ≤ k →
        k ≤ (partitionLoop leInt (getI ([4, 2, 7, 2, 9] : List Int) 0)
          [4, 2, 7, 2, 9] 0 1 4).2.2 →
        getN (partitionLoop leInt (getI ([4, 2, 7, 2, 9] : List Int) 0)
          [4, 2, 7, 2, 9] 0 1 4).1 k = getN ([4, 2, 7, 2, 9] : List Int) 0) ∧
      (∀ k : Int, (partitionLoop leInt (getI ([4, 2, 7, 2, 9] : List Int) 0)
          [4, 2, 7, 2, 9] 0 1 4).2.2 < k → k ≤ 4 →
        getN ([4, 2, 7, 2, 9] : List Int) 0 <
          getN (partitionLoop leInt (getI ([4, 2, 7, 2, 9] : List Int) 0)
            [4, 2, 7, 2, 9] 0 1 4).1 k) ∧
      quickSort3Way leInt ([4, 2, 7, 2, 9] : List Int) 0 4 =
        quickSort3Way leInt
          (quickSort3Way leInt (partitionLoop leInt (getI ([4, 2, 7, 2, 9] : List Int) 0)
            [4, 2, 7, 2, 9] 0 1 4).1 0
            ((partitionLoop leInt (getI ([4, 2, 7, 2, 9] : List Int) 0)
              [4, 2, 7, 2, 9] 0 1 4).2.1 - 1))
          ((partitionLoop leInt (getI ([4, 2, 7, 2, 9] : List Int) 0)
            [4, 2, 7, 2, 9] 0 1 4).2.2 + 1) 4) :=
  ⟨by decide, by decide, by decide,
    C6_partition_invariant [4, 2, 7, 2, 9] 0 4 (by decide) (by decide) (by decide)⟩

/-- Claim C7: on an all-equal input, `quickSort3Way(seq, 0, length-1)`
completes in a single partitioning pass: the partition loop moves
nothing (it returns `lt = low`, `gt = high`, so both recursive ranges
`[low, lt-1]` and `[gt+1, high]` are empty and the two recursive calls
return at the base case), at most one call performs a partition, and
the output equals the input. -/
theorem C7_all_equal (arr : List Int) (c : Int) (hall : ∀ x ∈ arr, x = c) :
    quickSort3Way leInt arr 0 ((arr.length : Int) - 1) = arr ∧
    countPartitions leInt arr 0 ((arr.length : Int) - 1) ≤ 1 ∧
    (2 ≤ arr.length →
      partitionLoop leInt (getI arr 0) arr 0 1 ((arr.length : Int) - 1) =
        (arr, 0, (arr.length : Int) - 1) ∧
      countPartitions leInt arr 0 ((arr.length : Int) - 1) = 1) := by
  by_cases hn : arr.length ≤ 1
  · refine ⟨quickSort3Way_base leInt arr _ _ (by omega), ?_, ?_⟩
    · rw [countPartitions_base leInt arr _ _ (by omega)]
      omega
    · intro h2
      exfalso
      omega
  · have h2 : 2 ≤ arr.length := by omega
    have hget : getI arr 0 = some (getN arr 0) := getI_in arr 0 (by omega) (by omega)
    have hc : getN arr 0 = c := by
      apply hall
      rw [getN]
      have hlt : (0 : Int).toNat < arr.length := by omega
      rw [List.getD_eq_getElem?_getD, List.getElem?_eq_getElem hlt]
      simpa using List.getElem_mem hlt
    have hpart : partitionLoop leInt (getI arr 0) arr 0 1 ((arr.length : Int) - 1) =
        (arr, 0, (arr.length : Int) - 1) := by
      rw [hget, hc]
      exact partitionLoop_allEq leInt_total c arr.length arr 0 1
        ((arr.length : Int) - 1) (by omega) (by omega) (by omega) hall
    have hmain : quickSort3Way leInt arr 0 ((arr.length : Int) - 1) = arr := by
      rw [quickSort3Way_unfold leInt arr 0 _ (by omega),
        show ((0 : Int) + 1) = 1 from by norm_num]
      simp only [hpart]
      rw [quickSort3Way_base leInt arr 0 (0 - 1) (by omega),
        quickSort3Way_base leInt arr _ _ (by omega)]
    have hcount : countPartitions leInt arr 0 ((arr.length : Int) - 1) = 1 := by
      rw [countPartitions_unfold leInt arr 0 _ (by omega),
        show ((0 : Int) + 1) = 1 from by norm_num]
      simp only [hpart]
      rw [quickSort3Way_base leInt arr 0 (0 - 1) (by omega),
        countPartitions_base leInt arr 0 (0 - 1) (by omega),
        countPartitions_base leInt arr _ _ (by omega)]
    exact ⟨hmain, by omega, fun _ => ⟨hpart, hcount⟩⟩

/-- Witness for C7 at the spec's concrete input `[4,4,4,4]`. -/
theorem C7_all_equal_witness :
    (∀ x ∈ ([4, 4, 4, 4] : List Int), x = 4) ∧
      (quickSort3Way leInt ([4, 4, 4, 4] : List Int) 0
          ((([4, 4, 4, 4] : List Int).length : Int) - 1) = [4, 4, 4, 4] ∧
        countPartitions leInt ([4, 4, 4, 4] : List Int) 0
          ((([4, 4, 4, 4] : List Int).length : Int) - 1) ≤ 1 ∧
        (2 ≤ ([4, 4, 4, 4] : List Int).length →
          partitionLoop leInt (getI ([4, 4, 4, 4] : List Int) 0) [4, 4, 4, 4] 0 1
              ((([4, 4, 4, 4] : List Int).length : Int) - 1) =
            ([4, 4, 4, 4], 0, (([4, 4, 4, 4] : List Int).length : Int) - 1) ∧
          countPartitions leInt ([4, 4, 4, 4] : List Int) 0
            ((([4, 4, 4, 4] : List Int).length : Int) - 1) = 1)) :=
  ⟨by decide, C7_all_equal [4, 4, 4, 4] 4 (by decide)⟩

/-- Claim C8: each of the five sorting operations is idempotent on
values: applying the algorithm to its own output returns the output
unchanged (`quickSort3Way` applied over the full range each time). -/
theorem C8_idempotent (arr : List Int) :
    insertionSort leInt (insertionSort leInt arr) = insertionSort leInt arr ∧
    selectionSort leInt (selectionSort leInt arr) = selectionSort leInt arr ∧
    bubbleSort leInt (bubbleSort leInt arr) = bubbleSort leInt arr ∧
    mergeSort leInt (mergeSort leInt arr) = mergeSort leInt arr ∧
    quickSort3Way leInt (quickSort3Way leInt arr 0 ((arr.length : Int) - 1)) 0
        (((quickSort3Way leInt arr 0 ((arr.length : Int) - 1)).length : Int) - 1) =
      quickSort3Way leInt arr 0 ((arr.length : Int) - 1) := by
  have hgen : ∀ (S : List Int → List Int),
      (∀ l, List.Perm (S l) l) → (∀ l, PW leInt (S l)) → ∀ l, S (S l) = S l := by
    intro S hperm hsort l
    exact List.eq_of_perm_of_sorted (hperm (S l)) (PW_leInt_sorted (hsort (S l)))
      (PW_leInt_sorted (hsort l))
  refine ⟨hgen _ (insertionSort_perm leInt)
      (insertionSort_sorted leInt_trans leInt_total) arr,
    hgen _ (selectionSort_perm leInt_trans leInt_total)
      (selectionSort_sorted leInt_trans leInt_total) arr,
    hgen _ (bubbleSort_perm leInt)
      (bubbleSort_sorted leInt_trans leInt_total) arr,
    hgen _ (mergeSort_perm leInt)
      (mergeSort_sorted leInt_trans leInt_total) arr,
    hgen (fun l => quickSort3Way leInt l 0 ((l.length : Int) - 1))
      (fun l => (quickFull l).2.1) (fun l => (quickFull l).2.2) arr⟩

/-- Claim C9: `quickSort3Way(seq, low, high)` with `0 ≤ low` and
`high < length` mutates the sequence only within `[low, high]`: the
length is unchanged and every index outside `[low, high]` holds its old
value after the call. -/
theorem C9_frame (arr : List Int) (low high : Int)
    (h0 : 0 ≤ low) (hh : high < (arr.length : Int)) :
    (quickSort3Way leInt arr low high).length = arr.length ∧
    ∀ k : Nat, ((k : Int) < low ∨ high < (k : Int)) →
      (quickSort3Way leInt arr low high).getD k 0 = arr.getD k 0 := by
  obtain ⟨hL, _, hF, _, _⟩ := quickSort3Way_spec leInt_trans leInt_total
    (high - low).toNat arr low high (Nat.le_refl _) h0 hh
  exact ⟨hL, hF⟩

/-- Witness for C9 at a concrete input. -/
theorem C9_frame_witness :
    (0 : Int) ≤ 1 ∧ (2 : Int) < (([9, 1, 8, 2] : List Int).length : Int) ∧
      ((quickSort3Way leInt ([9, 1, 8, 2] : List Int) 1 2).length =
        ([9, 1, 8, 2] : List Int).length ∧
      ∀ k : Nat, ((k : Int) < 1 ∨ 2 < (k : Int)) →
        (quickSort3Way leInt ([9, 1, 8, 2] : List Int) 1 2).getD k 0 =
          ([9, 1, 8, 2] : List Int).getD k 0) :=
  ⟨by decide, by decide, C9_frame [9, 1, 8, 2] 1 2 (by decide) (by decide)⟩

/-- Claim C10: `mergeSort` never mutates its input.  In the store model
(`mergeSortH`), where `slice` allocates fresh arrays and the recursive
calls receive only the fresh references, after the call the caller's
reference `r` still holds exactly the array it held before, and the
returned reference holds the sorted result. -/
theorem C10_mergeSort_no_mutation (s : List (List Int)) (r : Nat) (fuel : Nat)
    (hfuel : (readArr s r).length < fuel) (hr : r < s.length) :
    ∃ s' r', mergeSortH fuel s r = some (s', r') ∧
      readArr s' r = readArr s r ∧
      readArr s' r' = mergeSort leInt (readArr s r) := by
  obtain ⟨s', r', he, _, _, hpres, hres⟩ := mergeSortH_spec fuel s r hfuel hr
  exact ⟨s', r', he, hpres r hr, hres⟩

/-- Witness for C10 at a concrete input. -/
theorem C10_mergeSort_no_mutation_witness :
    (readArr [[5, 3, 8, 1, 9, 2]] 0).length < 7 ∧
      0 < ([[5, 3, 8, 1, 9, 2]] : List (List Int)).length ∧
      (∃ s' r', mergeSortH 7 [[5, 3, 8, 1, 9, 2]] 0 = some (s', r') ∧
        readArr s' 0 = readArr [[5, 3, 8, 1, 9, 2]] 0 ∧
        readArr s' r' = mergeSort leInt (readArr [[5, 3, 8, 1, 9, 2]] 0)) :=
  ⟨by decide, by decide,
    C10_mergeSort_no_mutation [[5, 3, 8, 1, 9, 2]] 0 7 (by decide) (by decide)⟩

end Sorting
